import Mathlib

/-!
# Verification of the `listprocs` process-listing utility

This file gives a shallow embedding, in Lean 4, of the parts of the
`listprocs` source tree that the specification's claims are about, and proves
or refutes each claim against that embedding.

Embedded units (file references are to the repository's `src/` tree):

* `Info` — the tri-state field wrapper from `src/info.rs`.
* the `cli` namespace — the process model, filter engine and tree builder of
  `src/cli.rs` and `src/cli/tree.rs` (`RunningProcessInfo`, `ProcessInfo`,
  `ProcessFilter`, `ProcessInfo.filter`, the ancestor walk of `create_tree`
  and the nested-map tree it builds).
* the `table` namespace — the bordered-table shrink-and-redistribute step of
  `src/utils/table.rs` (`Builder::build_bordered`, lines 188–229), together
  with the top border row it renders.
* `ProcessInfo` (root) — the full record struct of `src/process_info.rs`,
  with `darwinPidInfo` (`src/ffi/darwin.rs`, `Pid::info`) and `linuxPidInfo`
  (`src/ffi/linux.rs`, `Pid::info`).
* `Field` / `sorted_processes_info` — the sort engine of
  `src/cli/common.rs` (`Field::compare`, `TableArgs::sorted_processes_info`).
* `format_mem` — from `src/utils.rs`.

Modelling conventions, used consistently below:

* Rust machine integers are modelled as `Nat`/`Int`; where the source relies
  on release-mode two's-complement wrapping (`usize`/`isize` arithmetic in
  `build_bordered`), the wrap is written out explicitly modulo `2 ^ 64`.
* `f64` values (`cpu_usage`, `mem_usage`, time arithmetic) are modelled as
  exact rationals `ℚ`; consequently `partial_cmp(..).unwrap_or(Equal)`
  coincides with the total `compare` on `ℚ`.  Division by zero yields `0`
  in `ℚ` where Rust `f64` would yield `inf`/`NaN`; no claim depends on it.
* `Duration` is modelled as its total length in nanoseconds (`Nat`),
  `SystemTime` as seconds since the epoch (`ℚ`).
* A compiled regular expression is an external collaborator (the spec puts
  regex compilation out of scope); it is modelled as an opaque predicate
  `Regex := String → Bool`, with `is_match` being application.
* `io::Error` is modelled by the only observation the embedded code makes of
  it, `raw_os_error()`.
* Fallible operations return `Except IoError _`; external inputs of an
  I/O-performing function (the OS query results it consumes) are passed as
  explicit arguments.
* Rust's `HashMap<Pid, ProcessInfo>` is modelled as an association list
  `List (Int × ProcessInfo)` with `List.lookup`, and `BTreeMap` (ordered by
  pid at each tree level) as a key-sorted association list.
* Rust's stable `sort_by` is modelled by `List.mergeSort`, which realises
  the same contract (stable, comparator-driven).
-/

/-! ## `src/info.rs` — the tri-state field wrapper -/

/-- `Info<T>` from `src/info.rs`: `Defunct | Unauthorized | Some(T)`.
The variant order (used by the derived `Ord`) is the declaration order. -/
inductive Info (T : Type) where
  | Defunct
  | Unauthorized
  | Some (val : T)
deriving DecidableEq

/-- `Info::to_option` from `src/info.rs`. -/
def Info.to_option : Info T → Option T
  | .Defunct => Option.none
  | .Unauthorized => Option.none
  | .Some v => Option.some v

/-- `Info::map` from `src/info.rs`. -/
def Info.map (f : T → U) : Info T → Info U
  | .Defunct => Info.Defunct
  | .Unauthorized => Info.Unauthorized
  | .Some v => Info.Some (f v)

/-- The derived `Ord` on `Info<T>` (`#[derive(PartialOrd, Ord)]` in
`src/info.rs`): variant index first (`Defunct < Unauthorized < Some`), then
the payload, compared by `c`. -/
def Info.cmp (c : T → T → Ordering) : Info T → Info T → Ordering
  | .Defunct, .Defunct => Ordering.eq
  | .Defunct, .Unauthorized => Ordering.lt
  | .Defunct, .Some _ => Ordering.lt
  | .Unauthorized, .Defunct => Ordering.gt
  | .Unauthorized, .Unauthorized => Ordering.eq
  | .Unauthorized, .Some _ => Ordering.lt
  | .Some _, .Defunct => Ordering.gt
  | .Some _, .Unauthorized => Ordering.gt
  | .Some a, .Some b => c a b

/-- The derived `Ord` on `Option<T>` as Rust defines it
(`None < Some(_)`), payloads compared by `c`.  Used for the
`Info<Option<String>>` fields. -/
def optionCmp (c : T → T → Ordering) : Option T → Option T → Ordering
  | Option.none, Option.none => Ordering.eq
  | Option.none, Option.some _ => Ordering.lt
  | Option.some _, Option.none => Ordering.gt
  | Option.some a, Option.some b => c a b

/-- `io::Error`, reduced to the only observation the embedded code makes of
it: `raw_os_error()`. -/
structure IoError where
  rawOsError : Option Int
deriving DecidableEq

deriving instance DecidableEq for Except

/-! ## The `cli.rs` process model (`src/cli.rs`) -/

namespace cli

/-- `ffi::CmdLine` from `src/ffi/cmd_line.rs`: `None | Unauthorized | Some`. -/
inductive CmdLine (S : Type) where
  | none
  | unauthorized
  | some (s : S)
deriving DecidableEq

/-- `RunningProcessInfo` from `src/cli.rs` (lines 16–23).  `Pid`/`uid_t` are
modelled as `Int`/`Nat`; the strings are the lossy-decoded values. -/
structure RunningProcessInfo where
  parent_pid : Int
  uid : Nat
  username : String
  path : String
  cmd_line : CmdLine String
deriving DecidableEq

/-- `SIP_PREFIXES` from `src/cli.rs` (lines 25–32). -/
def SIP_PREFIXES : List String :=
  ["/bin", "/sbin", "/usr/bin", "/usr/sbin", "/usr/libexec", "/System"]

/-- `RunningProcessInfo::is_sip_protected` (`src/cli.rs` lines 57–61).  The
source tests a byte prefix (`as_bytes().starts_with`); since every prefix in
`SIP_PREFIXES` is ASCII, this coincides with the character-level
`String.isPrefixOf`. -/
def RunningProcessInfo.is_sip_protected (info : RunningProcessInfo) : Bool :=
  SIP_PREFIXES.any (fun p => p.isPrefixOf info.path)

/-- `RunningProcessInfo::cmd_line_str` (`src/cli.rs` lines 63–69). -/
def RunningProcessInfo.cmd_line_str (info : RunningProcessInfo) : String :=
  match info.cmd_line with
  | CmdLine.none => "<unknown>"
  | CmdLine.unauthorized => "<unauthorized>"
  | CmdLine.some s => s

/-- `ProcessInfo` from `src/cli.rs` (lines 72–76): `Defunct | Running(..)`. -/
inductive ProcessInfo where
  | Defunct
  | Running (info : RunningProcessInfo)
deriving DecidableEq

/-- `ProcessInfo::cmd_line_str` (`src/cli.rs` lines 79–84). -/
def ProcessInfo.cmd_line_str : ProcessInfo → String
  | .Defunct => "<defunct>"
  | .Running info => info.cmd_line_str

/-- A compiled case-insensitive regular expression, an external collaborator
of the filter engine, modelled as an opaque string predicate. -/
def Regex : Type := String → Bool

/-- `Regex::is_match`. -/
def Regex.is_match (r : Regex) (s : String) : Bool := r s

/-- `ProcessFilter` from `src/cli.rs` (lines 100–107). -/
structure ProcessFilter where
  regex : Option Regex
  invert_regex : Bool
  user_ids : List Nat
  usernames : List String
  include_defunct : Bool
  include_sip : Bool

/-- `ProcessInfo::new` from `src/cli.rs` (lines 110–121), parametrised by
the outcome of `RunningProcessInfo::new(pid)` (an OS query): errno 3
(`ESRCH`) becomes `Ok(Defunct)`, any other error is returned unchanged. -/
def ProcessInfo.new (r : Except IoError RunningProcessInfo) :
    Except IoError ProcessInfo :=
  match r with
  | Except.ok info => Except.ok (ProcessInfo.Running info)
  | Except.error err =>
    if err.rawOsError = Option.some 3 then Except.ok ProcessInfo.Defunct
    else Except.error err

/-- `ProcessInfo::filter` from `src/cli.rs` (lines 140–167), translated
conjunct by conjunct (`regex.map_or(true, ..)` is written as a `match`). -/
def ProcessInfo.filter (_pid : Int) (info : ProcessInfo) (f : ProcessFilter) :
    Bool :=
  (match info with
   | ProcessInfo.Defunct => f.include_defunct
   | ProcessInfo.Running info => f.include_sip || !info.is_sip_protected) &&
  (f.usernames.isEmpty ||
   match info with
   | ProcessInfo.Defunct => false
   | ProcessInfo.Running info => f.usernames.contains info.username) &&
  (f.user_ids.isEmpty ||
   match info with
   | ProcessInfo.Defunct => false
   | ProcessInfo.Running info => f.user_ids.contains info.uid) &&
  (match f.regex with
   | Option.none => true
   | Option.some regex =>
     f.invert_regex !=
       (match info with
        | ProcessInfo.Defunct => regex.is_match ("<defunct>")
        | ProcessInfo.Running info =>
          regex.is_match info.path || regex.is_match info.cmd_line_str))

/-- The first conjunct of `ProcessInfo::filter` (defunct/SIP inclusion),
named for the claims about the filter's structure. -/
def inclusionPred (f : ProcessFilter) (info : ProcessInfo) : Bool :=
  match info with
  | ProcessInfo.Defunct => f.include_defunct
  | ProcessInfo.Running info => f.include_sip || !info.is_sip_protected

/-- The owner conjuncts of `ProcessInfo::filter`: the username allow-list
conjunct and the uid allow-list conjunct, as written in the source. -/
def ownerAllowPred (f : ProcessFilter) (info : ProcessInfo) : Bool :=
  (f.usernames.isEmpty ||
   match info with
   | ProcessInfo.Defunct => false
   | ProcessInfo.Running info => f.usernames.contains info.username) &&
  (f.user_ids.isEmpty ||
   match info with
   | ProcessInfo.Defunct => false
   | ProcessInfo.Running info => f.user_ids.contains info.uid)

/-- The regex conjunct of `ProcessInfo::filter`, as written in the source. -/
def textPred (f : ProcessFilter) (info : ProcessInfo) : Bool :=
  match f.regex with
  | Option.none => true
  | Option.some regex =>
    f.invert_regex !=
      (match info with
       | ProcessInfo.Defunct => regex.is_match ("<defunct>")
       | ProcessInfo.Running info =>
         regex.is_match info.path || regex.is_match info.cmd_line_str)

/-- The text-filter predicate as the specification words it: the regex is
matched against the executable path and the rendered command line, OR'd,
then XOR'd with the invert flag; a defunct record is matched against the
literal placeholder; no regex means vacuously true. -/
def textFilterSpec (f : ProcessFilter) (info : ProcessInfo) : Bool :=
  match f.regex with
  | Option.none => true
  | Option.some r =>
    xor f.invert_regex
      (match info with
       | ProcessInfo.Defunct => r.is_match ("<defunct>")
       | ProcessInfo.Running i =>
         r.is_match i.path || r.is_match i.cmd_line_str)

end cli

/-! ## `src/utils.rs` — `format_mem` -/

/-- `u64::leading_zeros`. -/
def u64LeadingZeros (n : Nat) : Nat :=
  if n = 0 then 64 else 63 - Nat.log2 n

/-- The unit index computed by `format_mem` (`src/utils.rs` line 18):
`(63 - mem.max(1).leading_zeros()) / 10`. -/
def formatMemIndex (mem : Nat) : Nat :=
  (63 - u64LeadingZeros (max mem 1)) / 10

/-- The unit-prefix array of `format_mem` (`src/utils.rs` line 17). -/
def memUnitPrefixes : List String :=
  ["B", "KiB", "MiB", "GiB", "TiB", "PiB", "EiB"]

/-- Fixed-point rendering with one decimal digit, standing in for the
`{:.01}` float format (the value is computed exactly over `ℚ`, rounding
half-up where `f64` formatting rounds half-to-even; the claim under
verification concerns totality, not the decimal string). -/
def oneDecimalString (q : ℚ) : String :=
  let n : Int := Int.floor (q * 10 + 1 / 2)
  toString (n / 10) ++ "." ++ toString ((n % 10).natAbs)

/-- `format_mem` from `src/utils.rs` (lines 16–24).  The indexing
`prefix[log1024]` is modelled with `List.get?`, so an out-of-bounds access
(a Rust panic) is `Option.none`. -/
def format_mem (mem : Nat) : Option String :=
  let log1024 := formatMemIndex mem
  match memUnitPrefixes.get? log1024 with
  | Option.none => Option.none
  | Option.some p =>
    Option.some (oneDecimalString ((mem : ℚ) / (2 : ℚ) ^ (10 * log1024)) ++ " " ++ p)

/-! ## `src/utils/table.rs` — the bordered-table shrink step

`Builder::build_bordered` receives columns whose `width` field already holds
the natural width (max of header width and per-row estimates, clamped to any
`max_width`; lines 171–186).  Lines 188–229 then shrink to a target total
width; that step is embedded here.  Rust arithmetic is `usize`/`isize` in
release mode, so every subtraction, cast and multiplication that may leave
the 64-bit range is written with an explicit wrap. -/

namespace table

/-- The layout-relevant state of a `Column` during `build_bordered`
(the closures and name are irrelevant to the width computation once `width`
holds the natural width). -/
structure Column where
  width : Nat
  h_padding : Option Nat
  can_shrink : Bool
deriving DecidableEq

/-- `column.h_padding.unwrap_or(self.h_padding)`. -/
def effPad (bp : Nat) (c : Column) : Nat := c.h_padding.getD bp

/-- `total_width` (lines 189–193): per-column content plus two paddings,
plus the `columns.len() + 1` vertical border characters. -/
def totalWidth (bp : Nat) (cols : List Column) : Nat :=
  (cols.map (fun c => c.width + 2 * effPad bp c)).sum + (cols.length + 1)

/-- `shrinkable_width` (lines 195–199): sum of the widths of the
shrink-eligible columns. -/
def shrinkableWidth (cols : List Column) : Nat :=
  ((cols.filter (fun c => c.can_shrink)).map (fun c => c.width)).sum

/-- Release-mode wrapping `usize` subtraction: `a - b` modulo `2 ^ 64`. -/
def wrapSub (a b : Nat) : Nat := ((((a : Int) - (b : Int))) % (2 ^ 64)).toNat

/-- Reduction of a `usize` computation modulo `2 ^ 64` (wrapping
multiplication/addition). -/
def uwrap (a : Nat) : Nat := a % 2 ^ 64

/-- The `as isize` cast: reinterpret a `usize` value (already reduced
modulo `2 ^ 64`) as a signed 64-bit integer. -/
def isizeOfUsize (a : Nat) : Int :=
  if a < 2 ^ 63 then (a : Int) else (a : Int) - 2 ^ 64

/-- Release-mode wrapping of an `isize` intermediate result. -/
def iwrap (x : Int) : Int := (x + 2 ^ 63) % (2 ^ 64) - 2 ^ 63

/-- `usize::wrapping_add_signed`. -/
def wrapAddSigned (a : Nat) (d : Int) : Nat :=
  (((a : Int) + d) % (2 ^ 64)).toNat

/-- The per-column body of the first shrink loop (lines 204–214): the blend
of the proportional target `scaled` and the equal split `equal`, weighted by
`(3 * max_width + total_width) / (4 * total_width)` in truncating `isize`
division, then `equal.wrapping_add_signed(..)`. -/
def blendWidth (M T E SW equal w : Nat) : Nat :=
  let scaled := wrapSub w (uwrap (E * w + SW - 1) / SW)
  wrapAddSigned equal
    (Int.tdiv
      (iwrap (iwrap (isizeOfUsize scaled - isizeOfUsize equal) *
        isizeOfUsize (uwrap (3 * M + T))))
      (isizeOfUsize (uwrap (4 * T))))

/-- The state of the column list after the first shrink loop
(lines 202–215): if no column is shrinkable nothing happens, otherwise every
shrinkable column's width is replaced by its blended value. -/
def blendedColumns (bp : Nat) (cols : List Column) (M : Nat) : List Column :=
  let T := totalWidth bp cols
  let E := T - M
  let SW := shrinkableWidth cols
  if SW = 0 then cols
  else
    let n := (cols.filter (fun c => c.can_shrink)).length
    let equal := wrapSub M (T - SW) / n
    cols.map (fun c =>
      if c.can_shrink then { c with width := blendWidth M T E SW equal c.width }
      else c)

/-- The reconciliation loop (lines 222–227): add one width unit to each of
the first `d` columns (`iter_mut().take(d)`). -/
def incFirst : List Column → Nat → List Column
  | [], _ => []
  | c :: cs, 0 => c :: cs
  | c :: cs, d + 1 => { c with width := c.width + 1 } :: incFirst cs d

/-- Lines 188–229 of `build_bordered`: given `max_width`, if the natural
total width does not exceed it (`checked_sub` returns `None`) the columns
are untouched; otherwise the blended shrink pass runs, followed by the
redistribution of `max_width - (shrinkable_width + non_shrinkable_width)`
single units (a wrapping `usize` subtraction). -/
def shrinkColumns (bp : Nat) (cols : List Column) (max_width : Option Nat) :
    List Column :=
  match max_width with
  | Option.none => cols
  | Option.some M =>
    let T := totalWidth bp cols
    if M ≤ T then
      let NS := T - shrinkableWidth cols
      let cols1 := blendedColumns bp cols M
      incFirst cols1 (wrapSub M (shrinkableWidth cols1 + NS))
    else cols

/-- The horizontal stretches of a border row (lines 234–243): for each
column after the first a junction character, then `width + 2 * padding`
dashes. -/
def rowPieces (bp : Nat) : Bool → List Column → List Char
  | _, [] => []
  | isFirst, c :: cs =>
    (if isFirst then [] else ['┬']) ++
      List.replicate (c.width + 2 * effPad bp c) '─' ++ rowPieces bp false cs

/-- The top border row of `build_bordered` (lines 233–245): corner, the
dashes-and-junctions run, corner. -/
def topBorderRow (bp : Nat) (cols : List Column) : List Char :=
  '┌' :: (rowPieces bp true cols ++ ['┐'])

/-- The two shrinkable columns of the specification's example: natural
widths 50 and 10, no padding. -/
def exampleCols : List Column :=
  [⟨50, Option.some 0, true⟩, ⟨10, Option.some 0, true⟩]

/-- A three-column counterexample column set: natural widths 2, 2 and 8,
all shrinkable, no padding. -/
def cexCols : List Column :=
  [⟨2, Option.some 0, true⟩, ⟨2, Option.some 0, true⟩, ⟨8, Option.some 0, true⟩]

end table

/-! ## `src/cli/tree.rs` — the ancestor walk and the process tree

`create_tree` (lines 27–51) walks, for every filtered record, the
`iter::successors` chain of parent links through the full record map, pushes
the chain onto a stack and pops it into a nested `BTreeMap`.  The walk has
no cycle detection: `iter::successors` keeps producing states for as long as
the parent lookup succeeds.  It is embedded with explicit fuel
(`chainF`), so that `chainF fuel s = Option.none` states that the walk has
not finished within `fuel` visited nodes; the walk's successor map is
deterministic, so a walk that visits more than `full.length + 1` nodes has
repeated a state and never terminates. -/

namespace cli

/-- One step of the ancestor walk (`src/cli/tree.rs` lines 35–43): a
defunct record has no parent link; otherwise the parent pid is looked up in
the full record map. -/
def stepFn (full : List (Int × ProcessInfo)) :
    Int × ProcessInfo → Option (Int × ProcessInfo)
  | (_, ProcessInfo.Defunct) => Option.none
  | (_, ProcessInfo.Running info) =>
    (List.lookup info.parent_pid full).map (fun pi => (info.parent_pid, pi))

/-- The `iter::successors` ancestor chain from a starting record, with
explicit fuel: `Option.some l` when the walk yields exactly the nodes `l`
(the start included) within `fuel` visits, `Option.none` when `fuel` visits
do not exhaust it. -/
def chainF (full : List (Int × ProcessInfo)) :
    Nat → Int × ProcessInfo → Option (List (Int × ProcessInfo))
  | 0, _ => Option.none
  | fuel + 1, s =>
    match stepFn full s with
    | Option.none => Option.some [s]
    | Option.some s2 => (chainF full fuel s2).map (fun r => s :: r)

/-- The `k`-th state of the ancestor walk (`Option.none` once the walk has
stopped). -/
def iterStep (full : List (Int × ProcessInfo)) :
    Nat → Int × ProcessInfo → Option (Int × ProcessInfo)
  | 0, s => Option.some s
  | k + 1, s => (stepFn full s).bind (iterStep full k)

/-- Acyclicity of the ancestor walk from `s`, in bounded (decidable) form:
among the first `full.length + 1` walk states no two are equal.  A cyclic
parent table violates this; an OS-provided acyclic table satisfies it. -/
def NoEarlyRepeat (full : List (Int × ProcessInfo)) (s : Int × ProcessInfo) :
    Prop :=
  ∀ j ∈ List.range (full.length + 1), ∀ i ∈ List.range j,
    iterStep full j s ≠ Option.none → iterStep full i s ≠ iterStep full j s

instance (full : List (Int × ProcessInfo)) (s : Int × ProcessInfo) :
    Decidable (NoEarlyRepeat full s) := by
  unfold NoEarlyRepeat
  infer_instance

/-- The pids visited by the ancestor walk from `s` (empty if the walk does
not finish within `full.length + 1` visits). -/
def chainPids (full : List (Int × ProcessInfo)) (s : Int × ProcessInfo) :
    List Int :=
  ((chainF full (full.length + 1) s).getD []).map Prod.fst

/-- The nested ordered map `Node(BTreeMap<Pid, Node>)` of
`src/cli/tree.rs` (line 25), as a key-sorted association list at every
level. -/
inductive Node where
  | mk : List (Int × Node) → Node

/-- The child map of a node. -/
def Node.children : Node → List (Int × Node)
  | .mk cs => cs

mutual

/-- The stack-popping insertion loop of `create_tree` (lines 44–47):
descend along the root-first path, creating empty nodes where a pid is
absent (`entry(pid).or_insert(Node(BTreeMap::default()))`). -/
def insertChain : List Int → Node → Node
  | [], t => t
  | p :: rest, .mk cs => .mk (insertAt p rest cs)
termination_by path _ => (path.length + 1, 0)

/-- `BTreeMap::entry(p).or_insert(empty)` followed by the recursive descent:
inserts `p` at its sorted position (or merges with an existing entry) and
continues with the rest of the path inside `p`'s subtree. -/
def insertAt : Int → List Int → List (Int × Node) → List (Int × Node)
  | p, rest, [] => [(p, insertChain rest (.mk []))]
  | p, rest, (q, t) :: cs =>
    if p = q then (q, insertChain rest t) :: cs
    else if p < q then (p, insertChain rest (.mk [])) :: (q, t) :: cs
    else (q, t) :: insertAt p rest cs
termination_by _ rest cs => (rest.length + 1, cs.length + 1)

end

/-- `create_tree` (lines 27–51): fold the filtered records, extending each
record's ancestor chain and inserting its reversed pid path into the shared
tree.  `Option.none` models divergence: some record's ancestor walk did not
finish within `full.length + 1` visits (by determinism of the walk it then
never finishes). -/
def create_tree (processes_info full : List (Int × ProcessInfo)) :
    Option Node :=
  processes_info.foldl
    (fun acc pi =>
      acc.bind (fun t =>
        (chainF full (full.length + 1) pi).map
          (fun c => insertChain ((c.map Prod.fst).reverse) t)))
    (Option.some (Node.mk []))

/-- All pids stored in a tree, in preorder. -/
def Node.pidsList : Node → List Int
  | .mk cs => cs.attach.flatMap (fun x => x.1.1 :: x.1.2.pidsList)
termination_by t => sizeOf t
decreasing_by
  have h1 : sizeOf x.1.2 < sizeOf x.1 := by cases x.1; simp
  have h2 : sizeOf x.1 < sizeOf cs := List.sizeOf_lt_of_mem x.2
  simp
  omega

/-- The number of nodes of a tree. -/
def Node.countNodes : Node → Nat
  | .mk cs => (cs.attach.map (fun x => 1 + x.1.2.countNodes)).sum
termination_by t => sizeOf t
decreasing_by
  have h1 : sizeOf x.1.2 < sizeOf x.1 := by cases x.1; simp
  have h2 : sizeOf x.1 < sizeOf cs := List.sizeOf_lt_of_mem x.2
  simp
  omega

/-- `OccursAt t π` : the nonempty pid path `π` leads from the root of `t`
to a node of `t`. -/
inductive OccursAt : Node → List Int → Prop where
  | key {cs : List (Int × Node)} {p : Int} {t : Node} :
      (p, t) ∈ cs → OccursAt (.mk cs) [p]
  | nest {cs : List (Int × Node)} {p : Int} {t : Node} {π : List Int} :
      (p, t) ∈ cs → OccursAt t π → OccursAt (.mk cs) (p :: π)

/-- The `BTreeMap` representation invariant: at every level the keys are
strictly increasing. -/
inductive WfTree : Node → Prop where
  | mk {cs : List (Int × Node)} :
      List.Chain' (fun a b => a.1 < b.1) cs →
      (∀ x ∈ cs, WfTree x.2) → WfTree (.mk cs)

/-- A pid path is canonical when it is the reversed ancestor chain of its
own endpoint (looked up in `full`). -/
def CanonPath (full : List (Int × ProcessInfo)) (π : List Int) : Prop :=
  ∃ x i l, π.getLast? = Option.some x ∧
    List.lookup x full = Option.some i ∧
    chainF full (full.length + 1) (x, i) = Option.some l ∧
    π = (l.map Prod.fst).reverse

/-- Every path of the tree is canonical with respect to `full`. -/
def Canonical (full : List (Int × ProcessInfo)) (t : Node) : Prop :=
  ∀ π, OccursAt t π → CanonPath full π

/-- A concrete record table whose parent links form a two-cycle:
process 1's parent is 2 and process 2's parent is 1. -/
def cyclicFull : List (Int × ProcessInfo) :=
  [(1, ProcessInfo.Running ⟨2, 0, "root", "/a", CmdLine.none⟩),
   (2, ProcessInfo.Running ⟨1, 0, "root", "/b", CmdLine.none⟩)]

/-- A concrete acyclic record table: process 1's parent is 2, process 2 is
defunct (its chain stops there). -/
def acyclicFull : List (Int × ProcessInfo) :=
  [(1, ProcessInfo.Running ⟨2, 0, "root", "/a", CmdLine.none⟩),
   (2, ProcessInfo.Defunct)]

end cli

/-! ## `src/process_info.rs` — the full process record -/

/-- `ProcessInfo` from `src/process_info.rs`.  `Pid` is `Int`, `Uid` is
`Nat`; `Duration` is nanoseconds (`Nat`), `SystemTime` is seconds since the
epoch (`ℚ`), `f64` is `ℚ`. -/
structure ProcessInfo where
  is_defunct : Bool
  parent_pid : Info Int
  uid : Info Nat
  username : Info String
  path : Info (Option String)
  cmd_line : Info (Option String)
  name : Info String
  cpu_usage : Info ℚ
  cpu_time : Info Nat
  mem_usage : Info ℚ
  virtual_mem_size : Info Nat
  physical_mem_size : Info Nat
  controlling_tty : Info (Option String)
  start_time : Info ℚ
deriving DecidableEq

/-! ## `src/cli/common.rs` — the sort engine -/

namespace common

/-- The sortable/displayable fields (`Field` in `src/cli/common.rs`,
lines 85–119). -/
inductive Field where
  | Pid
  | ParentPid
  | Uid
  | Username
  | Path
  | CmdLine
  | Name
  | AnyName
  | CpuUsage
  | MemUsage
  | VirtualMemSize
  | PhysicalMemSize
  | Tty
  | StartTime
  | CpuTime
deriving DecidableEq

/-- `PidAndInfo` from `src/cli/common.rs` (line 121). -/
def PidAndInfo : Type := Int × ProcessInfo

/-- `Field::compare` (`src/cli/common.rs` lines 124–153).  Each arm
compares one field with its derived `Ord` (`Info.cmp` over the payload
comparison); `cpu_usage`/`mem_usage` use `partial_cmp(..).unwrap_or(Equal)`,
which over the `ℚ` model of `f64` is the total `Ord.compare`;
`AnyName` chains four comparisons with `Ordering::then_with`. -/
def Field.compare : Field → PidAndInfo → PidAndInfo → Ordering
  | Field.Pid => fun a b => Ord.compare a.1 b.1
  | Field.ParentPid => fun a b =>
      Info.cmp Ord.compare a.2.parent_pid b.2.parent_pid
  | Field.Uid => fun a b => Info.cmp Ord.compare a.2.uid b.2.uid
  | Field.Username => fun a b => Info.cmp Ord.compare a.2.username b.2.username
  | Field.Path => fun a b =>
      Info.cmp (optionCmp Ord.compare) a.2.path b.2.path
  | Field.CmdLine => fun a b =>
      Info.cmp (optionCmp Ord.compare) a.2.cmd_line b.2.cmd_line
  | Field.Name => fun a b => Info.cmp Ord.compare a.2.name b.2.name
  | Field.AnyName => fun a b =>
      (((Info.cmp (optionCmp Ord.compare) a.2.cmd_line b.2.cmd_line).then
        (Info.cmp Ord.compare a.2.name b.2.name)).then
        (Info.cmp (optionCmp Ord.compare) a.2.path b.2.path)).then
        (Ord.compare (!a.2.is_defunct) (!b.2.is_defunct))
  | Field.CpuUsage => fun a b => Info.cmp Ord.compare a.2.cpu_usage b.2.cpu_usage
  | Field.MemUsage => fun a b => Info.cmp Ord.compare a.2.mem_usage b.2.mem_usage
  | Field.CpuTime => fun a b => Info.cmp Ord.compare a.2.cpu_time b.2.cpu_time
  | Field.VirtualMemSize => fun a b =>
      Info.cmp Ord.compare a.2.virtual_mem_size b.2.virtual_mem_size
  | Field.PhysicalMemSize => fun a b =>
      Info.cmp Ord.compare a.2.physical_mem_size b.2.physical_mem_size
  | Field.Tty => fun a b =>
      Info.cmp (optionCmp Ord.compare) a.2.controlling_tty b.2.controlling_tty
  | Field.StartTime => fun a b =>
      Info.cmp Ord.compare a.2.start_time b.2.start_time

/-- The composite comparator of `TableArgs::sorted_processes_info`
(`src/cli/common.rs` lines 500–505): the first non-`Equal` key comparison,
`Equal` if every key ties. -/
def sortCompare (keys : List Field) (a b : PidAndInfo) : Ordering :=
  (keys.findSome? (fun k =>
    Option.filter (fun c => !(c == Ordering.eq))
      (Option.some (Field.compare k a b)))).getD Ordering.eq

/-- `TableArgs::sorted_processes_info` (`src/cli/common.rs` lines 495–508),
applied to an already-acquired record list: `sort_by` with the composite
comparator when the key list is non-empty.  Rust's stable `sort_by` is
modelled by `List.mergeSort` with `le a b := compare a b ≠ Greater`. -/
def sorted_processes_info (sort : List Field) (processes_info : List PidAndInfo) :
    List PidAndInfo :=
  if sort.isEmpty then processes_info
  else processes_info.mergeSort (fun a b => !(sortCompare sort a b == Ordering.gt))

end common

/-! ## `src/ffi/darwin.rs` — the BSD/Darwin backend's `Pid::info` -/

/-- The fields of `proc_bsd_short_info` that `Pid::info` consumes. -/
structure BsdShortInfo where
  parent_pid : Int
  uid : Nat
  name : String
deriving DecidableEq

/-- The defunct record returned by the Darwin `Pid::info` on errno 3
(`src/ffi/darwin.rs` lines 139–154): `is_defunct` with every field
`Defunct`. -/
def darwinDefunctInfo : ProcessInfo where
  is_defunct := true
  parent_pid := Info.Defunct
  uid := Info.Defunct
  username := Info.Defunct
  path := Info.Defunct
  cmd_line := Info.Defunct
  name := Info.Defunct
  cpu_usage := Info.Defunct
  cpu_time := Info.Defunct
  mem_usage := Info.Defunct
  virtual_mem_size := Info.Defunct
  physical_mem_size := Info.Defunct
  controlling_tty := Info.Defunct
  start_time := Info.Defunct

/-- The error-dispatch prefix of the Darwin `Pid::info`
(`src/ffi/darwin.rs` lines 134–159), parametrised by the outcome of the
`bsd_short_info` OS query and by the rest of the function (the success
continuation, itself OS-dependent): errno 3 yields the defunct record, any
other error is propagated, success continues. -/
def darwinPidInfo (bsd_short_info : Except IoError BsdShortInfo)
    (rest : BsdShortInfo → Except IoError ProcessInfo) :
    Except IoError ProcessInfo :=
  match bsd_short_info with
  | Except.error err =>
    if err.rawOsError = Option.some 3 then Except.ok darwinDefunctInfo
    else Except.error err
  | Except.ok info => rest info

/-! ## `src/ffi/linux.rs` — the Linux backend's `Pid::info` -/

/-- `Status` from `src/ffi/linux.rs` (lines 16–27): the parsed
`/proc/<pid>/stat` fields.  `state` is the raw status byte. -/
structure Status where
  uid : Nat
  name : String
  state : Nat
  parent_pid : Int
  tty_dev_number : Int
  cpu_user_time : Nat
  cpu_system_time : Nat
  start_time : Nat
  vm_size : Nat
  rss : Nat
deriving DecidableEq

/-- The environment of one Linux `Pid::info` call: the results of the OS
queries it performs, passed explicitly. -/
structure LinuxEnv where
  now : ℚ
  uptime : Except IoError ℚ
  seconds_to_ticks : Nat
  page_size : Nat
  total_ram : Except IoError Nat
  username : Except IoError String
  path : Except IoError (Info (Option String))
  cmd_line : Except IoError (Info (Option (List String)))
deriving DecidableEq

/-- `ticks_to_duration` from `src/ffi/linux.rs` (lines 45–51), as a
nanosecond count (`u128` arithmetic is exact over `Nat`). -/
def linuxTicksToDuration (ticks s2t : Nat) : Nat :=
  ticks * 1000000000 / s2t

/-- The `as u32` cast of an `i32` device number. -/
def intAsU32 (i : Int) : Nat := (i % (2 ^ 32)).toNat

/-- `device_name` from `src/ffi/linux.rs` (lines 65–82). -/
def device_name (dev_number : Nat) : String :=
  let major := (dev_number >>> 8) % 256
  let minor := (dev_number % 256) ||| ((dev_number >>> 20) <<< 8)
  if major = 3 ∧ minor ≤ 0xFF then
    "/dev/tty" ++
      String.mk [("pqrstuvwxyzabcde".toList.getD (minor >>> 4) 'p'),
        ("0123456789abcdef".toList.getD (minor % 16) '0')]
  else if major = 4 ∧ minor ≤ 63 then
    "/dev/tty" ++ toString minor
  else if major = 4 ∧ minor ≤ 0xFF then
    "/dev/ttyS" ++ toString (minor - 64)
  else if 136 ≤ major ∧ major ≤ 143 ∧ minor ≤ 0xFF then
    "/dev/pts/" ++ toString (minor + (major - 136) * 256)
  else
    toString major ++ "." ++ toString minor

/-- The Linux `Pid::info` (`src/ffi/linux.rs` lines 159–239), parametrised
by the parsed `Status` and the OS-query environment.  Faithful to the
source's order of fallible operations; time/ratio arithmetic is over `ℚ`
(`elapsed().ok()` is `none` when the start time lies in the future, and the
`f64` divisions become exact `ℚ` divisions). -/
def linuxPidInfo (status : Status) (env : LinuxEnv) :
    Except IoError ProcessInfo := do
  let is_defunct := status.state == 90
  let username ← env.username
  let name := status.name
  let uptime ← env.uptime
  let s2t := env.seconds_to_ticks
  let system_startup_time : ℚ := env.now - uptime
  let start_time : ℚ :=
    system_startup_time + (linuxTicksToDuration status.start_time s2t : ℚ) / 1000000000
  let running_time : Option ℚ :=
    if start_time ≤ env.now then Option.some (env.now - start_time) else Option.none
  let cpu_time : Nat :=
    linuxTicksToDuration (status.cpu_user_time + status.cpu_system_time) s2t
  let cpu_usage : ℚ :=
    match running_time with
    | Option.some elapsed => ((cpu_time : ℚ) / 1000000000) / elapsed
    | Option.none => 0
  let page_size := env.page_size
  let physical_memory_max_size ← env.total_ram
  let virtual_mem_size := status.vm_size
  let physical_mem_size := status.rss * page_size
  let mem_usage : ℚ := (physical_mem_size : ℚ) / (physical_memory_max_size : ℚ)
  let controlling_tty : Option String :=
    if status.tty_dev_number = 0 then Option.none
    else Option.some (device_name (intAsU32 status.tty_dev_number))
  if is_defunct then
    return {
      is_defunct := is_defunct
      parent_pid := Info.Some status.parent_pid
      uid := Info.Some status.uid
      username := Info.Some username
      path := Info.Defunct
      cmd_line := Info.Defunct
      name := Info.Some name
      cpu_usage := Info.Some cpu_usage
      cpu_time := Info.Some cpu_time
      mem_usage := Info.Some mem_usage
      virtual_mem_size := Info.Some virtual_mem_size
      physical_mem_size := Info.Some physical_mem_size
      controlling_tty := Info.Some controlling_tty
      start_time := Info.Some start_time }
  let path ← env.path
  let cmd_line ← env.cmd_line
  let cmd_line_str :=
    cmd_line.map (fun o => o.map (fun parts => String.intercalate (" ") parts))
  return {
    is_defunct := is_defunct
    parent_pid := Info.Some status.parent_pid
    uid := Info.Some status.uid
    username := Info.Some username
    path := path
    cmd_line := cmd_line_str
    name := Info.Some name
    cpu_usage := Info.Some cpu_usage
    cpu_time := Info.Some cpu_time
    mem_usage := Info.Some mem_usage
    virtual_mem_size := Info.Some virtual_mem_size
    physical_mem_size := Info.Some physical_mem_size
    controlling_tty := Info.Some controlling_tty
    start_time := Info.Some start_time }

/-!
## Theorems

The remainder of the file settles the claims against the embedding above.
-/

/-- Decomposition of `ProcessInfo::filter` into its four named conjuncts. -/
theorem filter_decompose (pid : Int) (info : cli.ProcessInfo)
    (f : cli.ProcessFilter) :
    cli.ProcessInfo.filter pid info f =
      (cli.inclusionPred f info && cli.ownerAllowPred f info &&
        cli.textPred f info) := by
  cases info <;>
    simp [cli.ProcessInfo.filter, cli.inclusionPred, cli.ownerAllowPred,
      cli.textPred, Bool.and_assoc]

/-- The source's `!=` on the invert flag is the specification's XOR. -/
theorem textPred_eq_textFilterSpec (f : cli.ProcessFilter)
    (info : cli.ProcessInfo) :
    cli.textPred f info = cli.textFilterSpec f info := by
  unfold cli.textPred cli.textFilterSpec
  cases f.regex with
  | none => rfl
  | some r => cases h : f.invert_regex <;> cases info <;> simp [Bool.xor_comm]

/-- Claim C8 (confirmed): `ProcessInfo::filter` equals the conjunction of
its non-text conjuncts with the specification-worded text predicate: with a
regex set, the text predicate holds iff (the regex matches the executable
path OR the rendered command line) XOR the invert flag, a defunct record
being matched against the literal placeholder `"<defunct>"`; with no regex
the text predicate is vacuously true. -/
theorem c8_text_filter (pid : Int) (info : cli.ProcessInfo)
    (f : cli.ProcessFilter) :
    cli.ProcessInfo.filter pid info f =
      (cli.inclusionPred f info && cli.ownerAllowPred f info &&
        cli.textFilterSpec f info) := by
  rw [filter_decompose, textPred_eq_textFilterSpec]

/-- Claim C7 (corrected): with no regex, empty allow-lists and both
inclusion flags set to *include* (`true`), the filter accepts every record,
defunct and SIP-protected ones included. -/
theorem c7_amended (pid : Int) (info : cli.ProcessInfo) (invert : Bool) :
    cli.ProcessInfo.filter pid info
      { regex := Option.none, invert_regex := invert, user_ids := [],
        usernames := [], include_defunct := true, include_sip := true } =
      true := by
  cases info <;> rfl

/-- Claim C7, counterexample: with the inclusion criteria at their *unset
CLI defaults* (`include_defunct = false`, `include_sip = false`) and
everything else unset, a defunct record is rejected, so the filter does not
accept every record. -/
theorem c7_counterexample :
    cli.ProcessInfo.filter 1 cli.ProcessInfo.Defunct
      { regex := Option.none, invert_regex := false, user_ids := [],
        usernames := [], include_defunct := false, include_sip := false } =
      false := rfl

/-- Claim C3 (corrected): the owner conjunct of the filter keeps the uid
allow-list and the username allow-list separate and requires *both* (each
vacuously true when empty); a `Defunct` record (which has no owner field)
never satisfies it when either list is non-empty; for a running record it
holds iff the username is a member of a non-empty username list AND the uid
is a member of a non-empty uid list. -/
theorem c3_amended :
    (∀ (pid : Int) (info : cli.ProcessInfo) (f : cli.ProcessFilter),
      cli.ProcessInfo.filter pid info f =
        (cli.inclusionPred f info && cli.ownerAllowPred f info &&
          cli.textPred f info)) ∧
    (∀ (f : cli.ProcessFilter) (info : cli.ProcessInfo),
      f.usernames = [] → f.user_ids = [] → cli.ownerAllowPred f info = true) ∧
    (∀ f : cli.ProcessFilter, f.usernames ≠ [] ∨ f.user_ids ≠ [] →
      cli.ownerAllowPred f cli.ProcessInfo.Defunct = false) ∧
    (∀ (f : cli.ProcessFilter) (r : cli.RunningProcessInfo),
      cli.ownerAllowPred f (cli.ProcessInfo.Running r) = true ↔
        ((f.usernames = [] ∨ r.username ∈ f.usernames) ∧
         (f.user_ids = [] ∨ r.uid ∈ f.user_ids))) := by
  refine ⟨filter_decompose, ?_, ?_, ?_⟩
  · intro f info h1 h2
    cases info <;> simp [cli.ownerAllowPred, h1, h2]
  · intro f h
    rcases h with h | h <;> simp [cli.ownerAllowPred, List.isEmpty_iff, h]
  · intro f r
    simp [cli.ownerAllowPred, List.isEmpty_iff]

/-- Claim C3, witness for the amended statement: concrete instantiations of
each hypothetical conjunct. -/
theorem c3_amended_witness :
    cli.ownerAllowPred
      { regex := Option.none, invert_regex := false, user_ids := [],
        usernames := [], include_defunct := true, include_sip := true }
      cli.ProcessInfo.Defunct = true ∧
    cli.ownerAllowPred
      { regex := Option.none, invert_regex := false, user_ids := [0],
        usernames := [], include_defunct := true, include_sip := true }
      cli.ProcessInfo.Defunct = false ∧
    (cli.ownerAllowPred
      { regex := Option.none, invert_regex := false, user_ids := [0],
        usernames := ["alice"], include_defunct := true, include_sip := true }
      (cli.ProcessInfo.Running ⟨1, 0, "root", "/x", cli.CmdLine.none⟩) = true ↔
      ((["alice"] = ([] : List String) ∨ "root" ∈ ["alice"]) ∧
       (([0] : List Nat) = [] ∨ 0 ∈ ([0] : List Nat)))) :=
  ⟨c3_amended.2.1 _ _ rfl rfl,
   c3_amended.2.2.1 _ (Or.inr (by simp)),
   c3_amended.2.2.2 _ _⟩

/-- Claim C3, counterexample to the claim as stated: the record's uid (0)
is a member of the allow-list `{uid 0, username "alice"}` — so by the claim
the owner predicate should hold and, every other criterion being
permissive, the record should pass the filter — yet the filter rejects it
(the code requires membership in *both* per-kind lists, and the username
"root" is not in the username list).  The first two conjuncts show the
other filter conjuncts are satisfied, pinning the rejection on the owner
predicate. -/
theorem c3_counterexample :
    cli.inclusionPred
      { regex := Option.none, invert_regex := false, user_ids := [0],
        usernames := ["alice"], include_defunct := true, include_sip := true }
      (cli.ProcessInfo.Running ⟨1, 0, "root", "/x", cli.CmdLine.none⟩) = true ∧
    cli.textPred
      { regex := Option.none, invert_regex := false, user_ids := [0],
        usernames := ["alice"], include_defunct := true, include_sip := true }
      (cli.ProcessInfo.Running ⟨1, 0, "root", "/x", cli.CmdLine.none⟩) = true ∧
    (0 : Nat) ∈ [0] ∧
    cli.ProcessInfo.filter 5
      (cli.ProcessInfo.Running ⟨1, 0, "root", "/x", cli.CmdLine.none⟩)
      { regex := Option.none, invert_regex := false, user_ids := [0],
        usernames := ["alice"], include_defunct := true, include_sip := true } =
      false :=
  ⟨rfl, rfl, by simp, rfl⟩

/-- Claim C2 (confirmed): both the Darwin backend's `Pid::info` and
`ProcessInfo::new` turn an errno-3 (`ESRCH`) failure of the underlying OS
query into a defunct record — for the backend, one with `is_defunct` set
and every field `Unavailable` — and propagate every other error unchanged
to the caller. -/
theorem c2_defunct_on_esrch :
    (∀ (err : IoError) (rest : BsdShortInfo → Except IoError ProcessInfo),
      err.rawOsError = Option.some 3 →
      darwinPidInfo (Except.error err) rest = Except.ok darwinDefunctInfo) ∧
    (∀ (err : IoError) (rest : BsdShortInfo → Except IoError ProcessInfo),
      err.rawOsError ≠ Option.some 3 →
      darwinPidInfo (Except.error err) rest = Except.error err) ∧
    (darwinDefunctInfo.is_defunct = true ∧
     darwinDefunctInfo.parent_pid = Info.Defunct ∧
     darwinDefunctInfo.uid = Info.Defunct ∧
     darwinDefunctInfo.username = Info.Defunct ∧
     darwinDefunctInfo.path = Info.Defunct ∧
     darwinDefunctInfo.cmd_line = Info.Defunct ∧
     darwinDefunctInfo.name = Info.Defunct ∧
     darwinDefunctInfo.cpu_usage = Info.Defunct ∧
     darwinDefunctInfo.cpu_time = Info.Defunct ∧
     darwinDefunctInfo.mem_usage = Info.Defunct ∧
     darwinDefunctInfo.virtual_mem_size = Info.Defunct ∧
     darwinDefunctInfo.physical_mem_size = Info.Defunct ∧
     darwinDefunctInfo.controlling_tty = Info.Defunct ∧
     darwinDefunctInfo.start_time = Info.Defunct) ∧
    (∀ err : IoError, err.rawOsError = Option.some 3 →
      cli.ProcessInfo.new (Except.error err) =
        Except.ok cli.ProcessInfo.Defunct) ∧
    (∀ err : IoError, err.rawOsError ≠ Option.some 3 →
      cli.ProcessInfo.new (Except.error err) = Except.error err) := by
  refine ⟨?_, ?_, ?_, ?_, ?_⟩
  · intro err rest h
    simp [darwinPidInfo, h]
  · intro err rest h
    simp [darwinPidInfo, h]
  · exact ⟨rfl, rfl, rfl, rfl, rfl, rfl, rfl, rfl, rfl, rfl, rfl, rfl, rfl, rfl⟩
  · intro err h
    simp [cli.ProcessInfo.new, h]
  · intro err h
    simp [cli.ProcessInfo.new, h]

/-- Claim C2, witness: errno 3 yields the defunct record, errno 13
(`EACCES`) is propagated, in both providers. -/
theorem c2_witness :
    darwinPidInfo (Except.error ⟨Option.some 3⟩)
      (fun _ => Except.error ⟨Option.none⟩) = Except.ok darwinDefunctInfo ∧
    darwinPidInfo (Except.error ⟨Option.some 13⟩)
      (fun _ => Except.error ⟨Option.none⟩) =
      Except.error ⟨Option.some 13⟩ ∧
    cli.ProcessInfo.new (Except.error ⟨Option.some 3⟩) =
      Except.ok cli.ProcessInfo.Defunct ∧
    cli.ProcessInfo.new (Except.error ⟨Option.some 13⟩) =
      Except.error ⟨Option.some 13⟩ :=
  ⟨c2_defunct_on_esrch.1 _ _ rfl,
   c2_defunct_on_esrch.2.1 _ _ (by decide),
   c2_defunct_on_esrch.2.2.2.1 _ rfl,
   c2_defunct_on_esrch.2.2.2.2 _ (by decide)⟩

/-- Claim C10 (confirmed): for every `u64` input, the unit index
`(63 - leading_zeros(max(mem, 1))) / 10` computed by `format_mem` is at
most 6, so the access into the seven-element unit-prefix array is in bounds
and `format_mem` returns a string. -/
theorem c10_format_mem_total (mem : Nat) (h : mem < 2 ^ 64) :
    formatMemIndex mem ≤ 6 ∧ (format_mem mem).isSome = true := by
  have h64 : (2 : Nat) ^ 64 = 18446744073709551616 := by norm_num
  have hne : max mem 1 ≠ 0 := by positivity
  have hlt : max mem 1 < 2 ^ 64 := by omega
  have hlog : Nat.log2 (max mem 1) ≤ 63 :=
    Nat.lt_succ_iff.mp ((Nat.log2_lt hne).mpr hlt)
  have hidx : formatMemIndex mem ≤ 6 := by
    unfold formatMemIndex u64LeadingZeros
    rw [if_neg hne, Nat.sub_sub_self hlog]
    omega
  refine ⟨hidx, ?_⟩
  have hsome : (memUnitPrefixes.get? (formatMemIndex mem)).isSome = true := by
    rw [List.get?_eq_getElem?, Option.isSome_iff_ne_none]
    intro hnone
    rw [List.getElem?_eq_none_iff] at hnone
    simp [memUnitPrefixes] at hnone
    omega
  obtain ⟨p, hp⟩ := Option.isSome_iff_exists.mp hsome
  rw [List.get?_eq_getElem?] at hp
  simp [format_mem, hp]

/-- Claim C10, witness: a concrete evaluation. -/
theorem c10_witness :
    formatMemIndex 123456 ≤ 6 ∧ (format_mem 123456).isSome = true :=
  c10_format_mem_total 123456 (by norm_num)

/-- Wrapping `usize` subtraction is plain subtraction when it cannot
underflow or overflow. -/
theorem wrapSub_eq {a b : Nat} (hba : b ≤ a) (ha : a < 2 ^ 64) :
    table.wrapSub a b = a - b := by
  unfold table.wrapSub
  rw [Int.emod_eq_of_lt (by omega) (by push_cast; omega)]
  omega

/-- Unfolding `totalWidth` over a cons cell. -/
theorem totalWidth_cons (bp : Nat) (c : table.Column) (cs : List table.Column) :
    table.totalWidth bp (c :: cs) =
      c.width + 2 * table.effPad bp c + 1 + table.totalWidth bp cs := by
  unfold table.totalWidth
  simp only [List.map_cons, List.sum_cons, List.length_cons]
  omega

/-- Unfolding `shrinkableWidth` over a shrinkable head. -/
theorem shrinkableWidth_cons_pos {c : table.Column} (h : c.can_shrink = true)
    (cs : List table.Column) :
    table.shrinkableWidth (c :: cs) = c.width + table.shrinkableWidth cs := by
  unfold table.shrinkableWidth
  simp [List.filter_cons, h]

/-- Unfolding `shrinkableWidth` over a non-shrinkable head. -/
theorem shrinkableWidth_cons_neg {c : table.Column} (h : c.can_shrink = false)
    (cs : List table.Column) :
    table.shrinkableWidth (c :: cs) = table.shrinkableWidth cs := by
  unfold table.shrinkableWidth
  simp [List.filter_cons, h]

/-- `incFirst` preserves the list length. -/
theorem incFirst_length : ∀ (cs : List table.Column) (d : Nat),
    (table.incFirst cs d).length = cs.length
  | [], _ => rfl
  | _ :: _, 0 => rfl
  | c :: cs, d + 1 => by simp [table.incFirst, incFirst_length cs d]

/-- Adding one width unit to each of the first `d ≤ |cs|` columns adds
exactly `d` to the total width. -/
theorem totalWidth_incFirst (bp : Nat) : ∀ (cs : List table.Column) (d : Nat),
    d ≤ cs.length →
    table.totalWidth bp (table.incFirst cs d) = table.totalWidth bp cs + d
  | [], d, h => by
    have hd : d = 0 := by simpa using h
    subst hd
    rfl
  | c :: cs, 0, _ => rfl
  | c :: cs, d + 1, h => by
    have ih := totalWidth_incFirst bp cs d (by simpa using h)
    show table.totalWidth bp
        ({ c with width := c.width + 1 } :: table.incFirst cs d) = _
    rw [totalWidth_cons, totalWidth_cons, ih]
    have hpad : table.effPad bp { c with width := c.width + 1 } =
        table.effPad bp c := rfl
    rw [hpad]
    show c.width + 1 + 2 * table.effPad bp c + 1 +
        (table.totalWidth bp cs + d) = _
    omega

/-- The shrinkable width never exceeds the total width. -/
theorem shrinkableWidth_le_totalWidth (bp : Nat) :
    ∀ cs : List table.Column, table.shrinkableWidth cs ≤ table.totalWidth bp cs
  | [] => by simp [table.shrinkableWidth, table.totalWidth]
  | c :: cs => by
    have ih := shrinkableWidth_le_totalWidth bp cs
    rw [totalWidth_cons]
    by_cases h : c.can_shrink = true
    · rw [shrinkableWidth_cons_pos h]
      omega
    · rw [shrinkableWidth_cons_neg (by simpa using h)]
      omega

/-- Rewriting the shrinkable widths by any function `g` changes the total
width and the shrinkable width by the same amount. -/
theorem mapShrink_total (bp : Nat) (g : Nat → Nat) :
    ∀ cs : List table.Column,
      table.totalWidth bp
          (cs.map (fun c =>
            if c.can_shrink then { c with width := g c.width } else c)) +
        table.shrinkableWidth cs =
      table.totalWidth bp cs +
        table.shrinkableWidth
          (cs.map (fun c =>
            if c.can_shrink then { c with width := g c.width } else c))
  | [] => rfl
  | c :: cs => by
    have ih := mapShrink_total bp g cs
    rw [List.map_cons]
    by_cases h : c.can_shrink = true
    · have hmap :
          (if c.can_shrink then { c with width := g c.width } else c) =
            ({ c with width := g c.width } : table.Column) := by
        rw [if_pos h]
      rw [hmap, totalWidth_cons, totalWidth_cons,
        shrinkableWidth_cons_pos h, shrinkableWidth_cons_pos (c := { c with width := g c.width }) h]
      have hpad : table.effPad bp { c with width := g c.width } =
          table.effPad bp c := rfl
      have hw : ({ c with width := g c.width } : table.Column).width =
          g c.width := rfl
      rw [hpad, hw]
      omega
    · have hb : c.can_shrink = false := by simpa using h
      have hmap :
          (if c.can_shrink then { c with width := g c.width } else c) = c := by
        rw [if_neg h]
      rw [hmap, totalWidth_cons, totalWidth_cons,
        shrinkableWidth_cons_neg hb, shrinkableWidth_cons_neg hb]
      omega

/-- The total width after the blended shrink pass is the new shrinkable
width plus the untouched non-shrinkable width. -/
theorem blended_totalWidth (bp : Nat) (cols : List table.Column) (M : Nat) :
    table.totalWidth bp (table.blendedColumns bp cols M) =
      table.shrinkableWidth (table.blendedColumns bp cols M) +
        (table.totalWidth bp cols - table.shrinkableWidth cols) := by
  have hle := shrinkableWidth_le_totalWidth bp cols
  unfold table.blendedColumns
  by_cases h : table.shrinkableWidth cols = 0
  · simp only [h, if_true]
    omega
  · simp only [h, if_false]
    have := mapShrink_total bp
      (table.blendWidth M (table.totalWidth bp cols)
        (table.totalWidth bp cols - M) (table.shrinkableWidth cols)
        (table.wrapSub M (table.totalWidth bp cols - table.shrinkableWidth cols) /
          (cols.filter (fun c => c.can_shrink)).length)) cols
    omega

/-- `blendedColumns` preserves the list length. -/
theorem blended_length (bp : Nat) (cols : List table.Column) (M : Nat) :
    (table.blendedColumns bp cols M).length = cols.length := by
  unfold table.blendedColumns
  by_cases h : table.shrinkableWidth cols = 0 <;> simp [h]

/-- The middle run of a border row has one junction character per column
after the first, plus the padded width of each column. -/
theorem rowPieces_false_length (bp : Nat) :
    ∀ cs : List table.Column,
      (table.rowPieces bp false cs).length =
        (cs.map (fun c => c.width + 2 * table.effPad bp c)).sum + cs.length
  | [] => rfl
  | c :: cs => by
    simp [table.rowPieces, rowPieces_false_length bp cs]
    omega

/-- The length of the rendered top border row of a non-empty column list is
exactly the total width. -/
theorem topBorderRow_length (bp : Nat) (cols : List table.Column)
    (h : cols ≠ []) :
    (table.topBorderRow bp cols).length = table.totalWidth bp cols := by
  obtain ⟨c, cs, rfl⟩ := List.exists_cons_of_ne_nil h
  simp [table.topBorderRow, table.rowPieces, rowPieces_false_length bp cs,
    table.totalWidth]
  omega

set_option maxRecDepth 4000 in
/-- Claim C1 (corrected).  General part: whenever the target width `M` is
between the non-shrinkable width and the natural total width, and the
blended shrink pass neither overshoots the target (its resulting total is
at most `M`) nor falls short of it by more than the number of columns, the
redistribution step makes the rendered top border row exactly `M`
characters long.  (The two extra provisos are necessary: see the
counterexample, where the blended pass overshoots and the rendered line
misses the target.)  Example part: for two shrinkable columns of natural
widths 50 and 10 with no padding and target total width 40, the final
widths are 27 and 10 — the wider column loses 23 columns, the narrower
none — the rendered line is exactly 40 characters, and the two final
widths sum to 37 (= 40 minus the three vertical border characters), not
40. -/
theorem c1_shrink_exact :
    (∀ (bp : Nat) (cols : List table.Column) (M : Nat),
      cols ≠ [] →
      table.totalWidth bp cols < 2 ^ 64 →
      table.totalWidth bp cols - table.shrinkableWidth cols ≤ M →
      M ≤ table.totalWidth bp cols →
      table.shrinkableWidth (table.blendedColumns bp cols M) +
          (table.totalWidth bp cols - table.shrinkableWidth cols) ≤ M →
      M - (table.shrinkableWidth (table.blendedColumns bp cols M) +
          (table.totalWidth bp cols - table.shrinkableWidth cols)) ≤
        cols.length →
      (table.topBorderRow bp
          (table.shrinkColumns bp cols (Option.some M))).length = M) ∧
    table.shrinkColumns 2 table.exampleCols (Option.some 40) =
      [⟨27, Option.some 0, true⟩, ⟨10, Option.some 0, true⟩] ∧
    50 - 27 = 23 ∧ 10 - 10 = 0 ∧ 27 + 10 = 37 ∧
    (table.topBorderRow 2
        (table.shrinkColumns 2 table.exampleCols (Option.some 40))).length =
      40 := by
  refine ⟨?_, by decide, rfl, rfl, rfl, by decide⟩
  intro bp cols M hne h64 hNS hMT hover hslack
  have hM64 : M < 2 ^ 64 := lt_of_le_of_lt hMT h64
  have hsub : table.wrapSub M
      (table.shrinkableWidth (table.blendedColumns bp cols M) +
        (table.totalWidth bp cols - table.shrinkableWidth cols)) =
      M - (table.shrinkableWidth (table.blendedColumns bp cols M) +
        (table.totalWidth bp cols - table.shrinkableWidth cols)) :=
    wrapSub_eq hover hM64
  have hres : table.shrinkColumns bp cols (Option.some M) =
      table.incFirst (table.blendedColumns bp cols M)
        (table.wrapSub M
          (table.shrinkableWidth (table.blendedColumns bp cols M) +
            (table.totalWidth bp cols - table.shrinkableWidth cols))) := by
    show (if M ≤ table.totalWidth bp cols then
        table.incFirst (table.blendedColumns bp cols M)
          (table.wrapSub M
            (table.shrinkableWidth (table.blendedColumns bp cols M) +
              (table.totalWidth bp cols - table.shrinkableWidth cols)))
      else cols) = _
    rw [if_pos hMT]
  rw [hres, hsub]
  have hlen1 : (table.blendedColumns bp cols M).length = cols.length :=
    blended_length bp cols M
  have hresne : table.incFirst (table.blendedColumns bp cols M)
      (M - (table.shrinkableWidth (table.blendedColumns bp cols M) +
        (table.totalWidth bp cols - table.shrinkableWidth cols))) ≠ [] := by
    intro hnil
    have := incFirst_length (table.blendedColumns bp cols M)
      (M - (table.shrinkableWidth (table.blendedColumns bp cols M) +
        (table.totalWidth bp cols - table.shrinkableWidth cols)))
    rw [hnil] at this
    simp only [List.length_nil] at this
    exact hne (List.eq_nil_of_length_eq_zero (by omega))
  rw [topBorderRow_length bp _ hresne,
    totalWidth_incFirst bp (table.blendedColumns bp cols M) _ (by omega),
    blended_totalWidth bp cols M]
  have hle := shrinkableWidth_le_totalWidth bp cols
  omega

set_option maxRecDepth 4000 in
/-- Claim C1, witness for the general part, at the specification's own
example (two shrinkable columns 50 and 10, no padding, target 40). -/
theorem c1_shrink_exact_witness :
    (table.topBorderRow 2
        (table.shrinkColumns 2 table.exampleCols (Option.some 40))).length =
      40 :=
  c1_shrink_exact.1 2 table.exampleCols 40 (by decide) (by decide) (by decide)
    (by decide) (by decide) (by decide)

set_option maxRecDepth 4000 in
/-- Claim C1, counterexample to the claim as stated: for the three
shrinkable columns of natural widths 2, 2 and 8 with no padding, the
non-shrinkable width is 4 and the natural total width is 16, yet with
target width 10 (which satisfies the claim's only hypothesis, 10 ≥ 4) the
rendered line comes out 14 characters long, not 10: the blended pass
*grows* the narrow columns (widths become 2, 2, 3, totalling 11 > 10), the
reconciliation subtraction `max_width - (shrinkable + non_shrinkable)`
wraps around, and the `take` then widens every column by one. -/
theorem c1_counterexample :
    table.totalWidth 2 table.cexCols - table.shrinkableWidth table.cexCols ≤
      10 ∧
    10 ≤ table.totalWidth 2 table.cexCols ∧
    table.shrinkColumns 2 table.cexCols (Option.some 10) =
      [⟨3, Option.some 0, true⟩, ⟨3, Option.some 0, true⟩,
        ⟨4, Option.some 0, true⟩] ∧
    (table.topBorderRow 2
        (table.shrinkColumns 2 table.cexCols (Option.some 10))).length = 14 :=
  ⟨by decide, by decide, by decide, by decide⟩

/-- A successful association-list lookup produces an entry of the list. -/
theorem mem_of_lookup_eq_some {α β : Type} [BEq α] [LawfulBEq α] {a : α}
    {b : β} : ∀ {l : List (α × β)}, List.lookup a l = Option.some b →
    (a, b) ∈ l
  | [], h => by simp [List.lookup] at h
  | (a1, b1) :: tl, h => by
    rw [List.lookup] at h
    cases he : a == a1 with
    | true =>
      rw [he] at h
      cases h
      have ha : a = a1 := beq_iff_eq.mp he
      subst ha
      exact List.mem_cons_self _ _
    | false =>
      rw [he] at h
      exact List.mem_cons_of_mem _ (mem_of_lookup_eq_some h)

/-- A walk state reached after at least one step is an entry of the full
record map. -/
theorem iterStep_mem (full : List (Int × cli.ProcessInfo)) :
    ∀ (k : Nat) (s s2 : Int × cli.ProcessInfo),
      cli.iterStep full (k + 1) s = Option.some s2 → s2 ∈ full
  | k, s, s2, h => by
    rw [cli.iterStep] at h
    cases hs : cli.stepFn full s with
    | none => simp [hs] at h
    | some s1 =>
      rw [hs, Option.some_bind] at h
      have hs1 : s1 ∈ full := by
        obtain ⟨p, info⟩ := s
        cases info with
        | Defunct => simp [cli.stepFn] at hs
        | Running r =>
          simp only [cli.stepFn, Option.map_eq_some'] at hs
          obtain ⟨pi, hpi, rfl⟩ := hs
          exact mem_of_lookup_eq_some hpi
      cases k with
      | zero =>
        rw [cli.iterStep] at h
        cases h
        exact hs1
      | succ k2 => exact iterStep_mem full k2 s1 s2 h

/-- A defined later walk state implies all earlier states are defined. -/
theorem iterStep_ne_none_of_succ (full : List (Int × cli.ProcessInfo)) :
    ∀ (k : Nat) (s : Int × cli.ProcessInfo),
      cli.iterStep full (k + 1) s ≠ Option.none →
      cli.iterStep full k s ≠ Option.none
  | 0, s, _ => by
    rw [cli.iterStep]
    exact Option.some_ne_none s
  | k + 1, s, h => by
    rw [cli.iterStep] at h
    rw [cli.iterStep]
    cases hs : cli.stepFn full s with
    | none => simp [hs] at h
    | some s1 =>
      rw [hs, Option.some_bind] at h
      rw [Option.some_bind]
      exact iterStep_ne_none_of_succ full k s1 h

/-- Monotone form of the previous lemma. -/
theorem iterStep_ne_none_mono (full : List (Int × cli.ProcessInfo))
    (s : Int × cli.ProcessInfo) :
    ∀ {j k : Nat}, j ≤ k → cli.iterStep full k s ≠ Option.none →
      cli.iterStep full j s ≠ Option.none := by
  intro j k hjk h
  induction k with
  | zero =>
    have : j = 0 := by omega
    subst this
    exact h
  | succ k2 ih =>
    rcases Nat.lt_or_ge j (k2 + 1) with hj | hj
    · exact ih (by omega) (iterStep_ne_none_of_succ full k2 s h)
    · have : j = k2 + 1 := by omega
      subst this
      exact h

/-- The walk's chain fails at a given fuel iff all that many steps are
defined. -/
theorem chainF_eq_none_iff (full : List (Int × cli.ProcessInfo)) :
    ∀ (fuel : Nat) (s : Int × cli.ProcessInfo),
      cli.chainF full fuel s = Option.none ↔
        cli.iterStep full fuel s ≠ Option.none
  | 0, s => by
    rw [cli.chainF, cli.iterStep]
    simp
  | fuel + 1, s => by
    cases hs : cli.stepFn full s with
    | none =>
      rw [cli.chainF, hs, cli.iterStep, hs]
      simp
    | some s2 =>
      rw [cli.chainF, hs, cli.iterStep, hs]
      simp only [Option.some_bind, Option.map_eq_none']
      exact chainF_eq_none_iff full fuel s2

/-- A chain produced with some fuel has all its prefix states defined and
is no longer than the fuel. -/
theorem chainF_some_spec (full : List (Int × cli.ProcessInfo)) :
    ∀ (fuel : Nat) (s : Int × cli.ProcessInfo)
      (l : List (Int × cli.ProcessInfo)),
      cli.chainF full fuel s = Option.some l →
      l.length ≤ fuel ∧
        ∀ k, k < l.length → cli.iterStep full k s ≠ Option.none
  | 0, s, l, h => by rw [cli.chainF] at h; cases h
  | fuel + 1, s, l, h => by
    rw [cli.chainF] at h
    cases hs : cli.stepFn full s with
    | none =>
      rw [hs] at h
      cases h
      refine ⟨by simp, ?_⟩
      intro k hk
      simp only [List.length_singleton] at hk
      have : k = 0 := by omega
      subst this
      rw [cli.iterStep]
      exact Option.some_ne_none s
    | some s2 =>
      rw [hs] at h
      rw [Option.map_eq_some'] at h
      obtain ⟨l2, hl2, rfl⟩ := h
      obtain ⟨hlen, hdef⟩ := chainF_some_spec full fuel s2 l2 hl2
      refine ⟨by simpa using hlen, ?_⟩
      intro k hk
      cases k with
      | zero =>
        rw [cli.iterStep]
        exact Option.some_ne_none s
      | succ k2 =>
        rw [cli.iterStep, hs, Option.some_bind]
        exact hdef k2 (by simpa using hk)

/-- Pigeonhole core: on a walk starting inside the full map with no early
state repetition, not all of the first `full.length + 1` steps can be
defined (the walk must stop within `full.length` visited nodes). -/
theorem not_all_iterStep_defined (full : List (Int × cli.ProcessInfo))
    (s : Int × cli.ProcessInfo) (hmem : s ∈ full)
    (hnr : cli.NoEarlyRepeat full s) :
    ¬(∀ k, k ≤ full.length → cli.iterStep full k s ≠ Option.none) := by
  intro hall
  set L := full.length with hL
  set f : Nat → Int × cli.ProcessInfo :=
    fun k => (cli.iterStep full k s).getD s with hf
  have hpair : (List.range (L + 1)).Pairwise (fun i j => f i ≠ f j) := by
    refine List.Pairwise.imp_of_mem ?_ (List.pairwise_lt_range (L + 1))
    intro i j hi hj hij hfij
    rw [List.mem_range] at hi hj
    have hjd : cli.iterStep full j s ≠ Option.none := hall j (by omega)
    have hid : cli.iterStep full i s ≠ Option.none := hall i (by omega)
    obtain ⟨x, hx⟩ := Option.ne_none_iff_exists'.mp hid
    obtain ⟨y, hy⟩ := Option.ne_none_iff_exists'.mp hjd
    have := hnr j (List.mem_range.mpr hj) i (List.mem_range.mpr hij) hjd
    apply this
    rw [hx, hy]
    rw [hf] at hfij
    simp only [hx, hy, Option.getD_some] at hfij
    rw [hfij]
  have hnodup : ((List.range (L + 1)).map f).Nodup :=
    List.pairwise_map.mpr hpair
  have hsub : ((List.range (L + 1)).map f).toFinset ⊆ full.toFinset := by
    intro x hx
    rw [List.mem_toFinset, List.mem_map] at hx
    obtain ⟨k, hk, rfl⟩ := hx
    rw [List.mem_range] at hk
    rw [List.mem_toFinset]
    have hkd : cli.iterStep full k s ≠ Option.none := hall k (by omega)
    obtain ⟨x, hx⟩ := Option.ne_none_iff_exists'.mp hkd
    rw [hf]
    simp only [hx, Option.getD_some]
    cases k with
    | zero =>
      rw [cli.iterStep] at hx
      cases hx
      exact hmem
    | succ k2 => exact iterStep_mem full k2 s x hx
  have hcard1 : ((List.range (L + 1)).map f).toFinset.card = L + 1 := by
    rw [List.toFinset_card_of_nodup hnodup]
    simp
  have hcard2 : full.toFinset.card ≤ L := List.toFinset_card_le full
  have := Finset.card_le_card hsub
  omega

/-- Claim C5 (corrected): if the ancestor walk from a record of the full
map repeats no state among its first `full.length + 1` states (in
particular whenever the parent links are acyclic), it terminates within
`full.length + 1` visits and visits at most `full.length` nodes.  The
as-stated claim — termination even on cyclic tables — fails; see the
counterexample. -/
theorem c5_walk_terminates (full : List (Int × cli.ProcessInfo))
    (s : Int × cli.ProcessInfo) (hmem : s ∈ full)
    (hnr : cli.NoEarlyRepeat full s) :
    ∃ l, cli.chainF full (full.length + 1) s = Option.some l ∧
      l.length ≤ full.length := by
  have hterm : cli.chainF full (full.length + 1) s ≠ Option.none := by
    intro hnone
    apply not_all_iterStep_defined full s hmem hnr
    intro k hk
    exact iterStep_ne_none_mono full s (by omega)
      ((chainF_eq_none_iff full (full.length + 1) s).mp hnone)
  obtain ⟨l, hl⟩ := Option.ne_none_iff_exists'.mp hterm
  refine ⟨l, hl, ?_⟩
  obtain ⟨hlen, hdef⟩ := chainF_some_spec full (full.length + 1) s l hl
  by_contra hgt
  apply not_all_iterStep_defined full s hmem hnr
  intro k hk
  exact hdef k (by omega)

/-- Claim C5, witness: on the concrete acyclic table the walk from record 1
terminates within the bound. -/
theorem c5_walk_terminates_witness :
    (cli.chainF cli.acyclicFull (cli.acyclicFull.length + 1)
        (1, cli.ProcessInfo.Running ⟨2, 0, "root", "/a", cli.CmdLine.none⟩)).isSome =
      true := by
  obtain ⟨l, hl, -⟩ := c5_walk_terminates cli.acyclicFull
    (1, cli.ProcessInfo.Running ⟨2, 0, "root", "/a", cli.CmdLine.none⟩)
    (by decide) (by decide)
  rw [hl]
  rfl

/-- Claim C5, counterexample to the claim as stated: on the two-record
table whose parent links form a cycle, the ancestor walk from record 1 has
not finished after `full.length + 1` visited nodes — it therefore visits
more nodes than there are records in the full record set (by determinism it
never stops at all). -/
theorem c5_counterexample :
    cli.chainF cli.cyclicFull (cli.cyclicFull.length + 1)
      (1, cli.ProcessInfo.Running ⟨2, 0, "root", "/a", cli.CmdLine.none⟩) =
      Option.none := by decide

/-- `compare` on any linear order is an oriented, transitive comparator. -/
theorem transCmp_compare {α : Type} [LinearOrder α] :
    Batteries.TransCmp (fun a b : α => Ord.compare a b) where
  symm x y := by
    show (compare x y).swap = compare y x
    rcases lt_trichotomy x y with h | h | h
    · rw [compare_lt_iff_lt.mpr h, compare_gt_iff_gt.mpr h]
      rfl
    · rw [compare_eq_iff_eq.mpr h, compare_eq_iff_eq.mpr h.symm]
      rfl
    · rw [compare_gt_iff_gt.mpr h, compare_lt_iff_lt.mpr h]
      rfl
  le_trans h1 h2 := by
    show compare _ _ ≠ Ordering.gt
    rw [compare_le_iff_le] at h1 h2 ⊢
    exact le_trans h1 h2

/-- The derived `Ord` on `Info<T>` is an oriented, transitive comparator
whenever the payload comparator is. -/
theorem transCmp_infoCmp {T : Type} {c : T → T → Ordering}
    (h : Batteries.TransCmp c) : Batteries.TransCmp (Info.cmp c) where
  symm x y := by
    cases x <;> cases y <;> try rfl
    exact h.symm _ _
  le_trans {x y z} h1 h2 := by
    cases x <;> cases y <;> cases z <;>
      simp only [Info.cmp] at h1 h2 ⊢ <;>
      first
      | exact h.le_trans h1 h2
      | decide
      | (exact absurd rfl h1)
      | (exact absurd rfl h2)

/-- The derived `Ord` on `Option<T>` is an oriented, transitive comparator
whenever the payload comparator is. -/
theorem transCmp_optionCmp {T : Type} {c : T → T → Ordering}
    (h : Batteries.TransCmp c) : Batteries.TransCmp (optionCmp c) where
  symm x y := by
    cases x <;> cases y <;> try rfl
    exact h.symm _ _
  le_trans {x y z} h1 h2 := by
    cases x <;> cases y <;> cases z <;>
      simp only [optionCmp] at h1 h2 ⊢ <;>
      first
      | exact h.le_trans h1 h2
      | decide
      | (exact absurd rfl h1)
      | (exact absurd rfl h2)

/-- Every single-field comparator of the sort engine is oriented and
transitive. -/
theorem transCmp_fieldCompare (k : common.Field) :
    Batteries.TransCmp (common.Field.compare k) := by
  have hint : Batteries.TransCmp (fun a b : Int => Ord.compare a b) :=
    transCmp_compare
  have hnat : Batteries.TransCmp (fun a b : Nat => Ord.compare a b) :=
    transCmp_compare
  have hstr : Batteries.TransCmp (fun a b : String => Ord.compare a b) :=
    transCmp_compare
  have hrat : Batteries.TransCmp (fun a b : ℚ => Ord.compare a b) :=
    transCmp_compare
  have hbool : Batteries.TransCmp (fun a b : Bool => Ord.compare a b) :=
    transCmp_compare
  letI i1 := transCmp_infoCmp hint
  letI i2 := transCmp_infoCmp hnat
  letI i3 := transCmp_infoCmp hstr
  letI i4 := transCmp_infoCmp hrat
  letI i5 := transCmp_optionCmp hstr
  letI i6 := transCmp_infoCmp i5
  cases k
  case Pid =>
    exact inferInstanceAs (Batteries.TransCmp
      (Ordering.byKey (fun x : common.PidAndInfo => x.1)
        (fun a b : Int => Ord.compare a b)))
  case ParentPid =>
    exact inferInstanceAs (Batteries.TransCmp
      (Ordering.byKey (fun x : common.PidAndInfo => x.2.parent_pid)
        (Info.cmp (fun a b : Int => Ord.compare a b))))
  case Uid =>
    exact inferInstanceAs (Batteries.TransCmp
      (Ordering.byKey (fun x : common.PidAndInfo => x.2.uid)
        (Info.cmp (fun a b : Nat => Ord.compare a b))))
  case Username =>
    exact inferInstanceAs (Batteries.TransCmp
      (Ordering.byKey (fun x : common.PidAndInfo => x.2.username)
        (Info.cmp (fun a b : String => Ord.compare a b))))
  case Path =>
    exact inferInstanceAs (Batteries.TransCmp
      (Ordering.byKey (fun x : common.PidAndInfo => x.2.path)
        (Info.cmp (optionCmp (fun a b : String => Ord.compare a b)))))
  case CmdLine =>
    exact inferInstanceAs (Batteries.TransCmp
      (Ordering.byKey (fun x : common.PidAndInfo => x.2.cmd_line)
        (Info.cmp (optionCmp (fun a b : String => Ord.compare a b)))))
  case Name =>
    exact inferInstanceAs (Batteries.TransCmp
      (Ordering.byKey (fun x : common.PidAndInfo => x.2.name)
        (Info.cmp (fun a b : String => Ord.compare a b))))
  case AnyName =>
    exact inferInstanceAs (Batteries.TransCmp
      (compareLex
        (compareLex
          (compareLex
            (Ordering.byKey (fun x : common.PidAndInfo => x.2.cmd_line)
              (Info.cmp (optionCmp (fun a b : String => Ord.compare a b))))
            (Ordering.byKey (fun x : common.PidAndInfo => x.2.name)
              (Info.cmp (fun a b : String => Ord.compare a b))))
          (Ordering.byKey (fun x : common.PidAndInfo => x.2.path)
            (Info.cmp (optionCmp (fun a b : String => Ord.compare a b)))))
        (Ordering.byKey (fun x : common.PidAndInfo => !x.2.is_defunct)
          (fun a b : Bool => Ord.compare a b))))
  case CpuUsage =>
    exact inferInstanceAs (Batteries.TransCmp
      (Ordering.byKey (fun x : common.PidAndInfo => x.2.cpu_usage)
        (Info.cmp (fun a b : ℚ => Ord.compare a b))))
  case MemUsage =>
    exact inferInstanceAs (Batteries.TransCmp
      (Ordering.byKey (fun x : common.PidAndInfo => x.2.mem_usage)
        (Info.cmp (fun a b : ℚ => Ord.compare a b))))
  case VirtualMemSize =>
    exact inferInstanceAs (Batteries.TransCmp
      (Ordering.byKey (fun x : common.PidAndInfo => x.2.virtual_mem_size)
        (Info.cmp (fun a b : Nat => Ord.compare a b))))
  case PhysicalMemSize =>
    exact inferInstanceAs (Batteries.TransCmp
      (Ordering.byKey (fun x : common.PidAndInfo => x.2.physical_mem_size)
        (Info.cmp (fun a b : Nat => Ord.compare a b))))
  case Tty =>
    exact inferInstanceAs (Batteries.TransCmp
      (Ordering.byKey (fun x : common.PidAndInfo => x.2.controlling_tty)
        (Info.cmp (optionCmp (fun a b : String => Ord.compare a b)))))
  case StartTime =>
    exact inferInstanceAs (Batteries.TransCmp
      (Ordering.byKey (fun x : common.PidAndInfo => x.2.start_time)
        (Info.cmp (fun a b : ℚ => Ord.compare a b))))
  case CpuTime =>
    exact inferInstanceAs (Batteries.TransCmp
      (Ordering.byKey (fun x : common.PidAndInfo => x.2.cpu_time)
        (Info.cmp (fun a b : Nat => Ord.compare a b))))

/-- The composite comparator on an empty key list is constantly `eq`. -/
theorem sortCompare_nil (a b : common.PidAndInfo) :
    common.sortCompare [] a b = Ordering.eq := rfl

/-- The composite comparator is the lexicographic chaining of the key
comparators. -/
theorem sortCompare_cons (k : common.Field) (ks : List common.Field)
    (a b : common.PidAndInfo) :
    common.sortCompare (k :: ks) a b =
      (common.Field.compare k a b).then (common.sortCompare ks a b) := by
  cases h : common.Field.compare k a b <;>
    simp only [common.sortCompare, List.findSome?_cons, h, Option.filter] <;>
    rfl

/-- The composite comparator is oriented and transitive. -/
theorem transCmp_sortCompare (keys : List common.Field) :
    Batteries.TransCmp (common.sortCompare keys) := by
  induction keys with
  | nil =>
    exact { symm := fun x y => rfl, le_trans := fun h1 _ => h1 }
  | cons k ks ih =>
    have hfun : common.sortCompare (k :: ks) =
        compareLex (common.Field.compare k) (common.sortCompare ks) := by
      funext a b
      exact sortCompare_cons k ks a b
    rw [hfun]
    letI := transCmp_fieldCompare k
    letI := ih
    exact inferInstanceAs (Batteries.TransCmp
      (compareLex (common.Field.compare k) (common.sortCompare ks)))

/-- Two records tying on every listed key tie on the composite
comparator. -/
theorem sortCompare_eq_of_all_eq (keys : List common.Field)
    (a b : common.PidAndInfo)
    (h : ∀ k ∈ keys, common.Field.compare k a b = Ordering.eq) :
    common.sortCompare keys a b = Ordering.eq := by
  induction keys with
  | nil => rfl
  | cons k ks ih =>
    rw [sortCompare_cons, h k (List.mem_cons_self _ _),
      ih (fun k2 hk2 => h k2 (List.mem_cons_of_mem _ hk2))]
    rfl

/-- Claim C4 (confirmed): for every non-empty sort-key list,
`sorted_processes_info` returns a permutation of its input, and any two
records that compare equal on every listed key keep their original relative
order (stability). -/
theorem c4_sort_stable (keys : List common.Field)
    (l : List common.PidAndInfo) (h : keys ≠ []) :
    (common.sorted_processes_info keys l).Perm l ∧
    ∀ a b : common.PidAndInfo, [a, b].Sublist l →
      (∀ k ∈ keys, common.Field.compare k a b = Ordering.eq) →
      [a, b].Sublist (common.sorted_processes_info keys l) := by
  have hb : keys.isEmpty = false := by
    cases keys with
    | nil => exact absurd rfl h
    | cons k ks => rfl
  have hsorted : common.sorted_processes_info keys l =
      l.mergeSort (fun a b => !(common.sortCompare keys a b == Ordering.gt)) := by
    unfold common.sorted_processes_info
    rw [hb]
    rfl
  have tc := transCmp_sortCompare keys
  have hle : ∀ a b : common.PidAndInfo,
      (!(common.sortCompare keys a b == Ordering.gt)) = true ↔
        common.sortCompare keys a b ≠ Ordering.gt := by
    intro a b
    cases hx : common.sortCompare keys a b <;> decide
  have htrans : ∀ a b c : common.PidAndInfo,
      (!(common.sortCompare keys a b == Ordering.gt)) = true →
      (!(common.sortCompare keys b c == Ordering.gt)) = true →
      (!(common.sortCompare keys a c == Ordering.gt)) = true := by
    intro a b c h1 h2
    rw [hle] at h1 h2 ⊢
    exact tc.le_trans h1 h2
  letI := tc
  have htotal : ∀ a b : common.PidAndInfo,
      ((!(common.sortCompare keys a b == Ordering.gt)) ||
        (!(common.sortCompare keys b a == Ordering.gt))) = true := by
    intro a b
    rw [Bool.or_eq_true]
    rcases hab : common.sortCompare keys a b with _ | _ | _
    · left
      decide
    · left
      decide
    · right
      have hba : common.sortCompare keys b a = Ordering.lt :=
        Batteries.OrientedCmp.cmp_eq_gt.mp hab
      rw [hba]
      decide
  constructor
  · rw [hsorted]
    exact List.mergeSort_perm l _
  · intro a b hsub hkeys
    rw [hsorted]
    refine List.sublist_mergeSort htrans htotal ?_ hsub
    refine List.pairwise_cons.mpr ⟨?_, ?_⟩
    · intro b2 hb2
      rw [List.mem_singleton] at hb2
      rw [hb2, hle]
      rw [sortCompare_eq_of_all_eq keys a b hkeys]
      simp
    · simp

/-- Claim C4, witness: sorting a concrete two-record list by `pid` yields a
permutation of it. -/
theorem c4_sort_stable_witness :
    (common.sorted_processes_info [common.Field.Pid]
        [((1 : Int), (⟨true, Info.Defunct, Info.Defunct, Info.Defunct,
            Info.Defunct, Info.Defunct, Info.Defunct, Info.Defunct,
            Info.Defunct, Info.Defunct, Info.Defunct, Info.Defunct,
            Info.Defunct, Info.Defunct⟩ : ProcessInfo)),
         ((2 : Int), (⟨false, Info.Defunct, Info.Defunct, Info.Defunct,
            Info.Defunct, Info.Defunct, Info.Defunct, Info.Defunct,
            Info.Defunct, Info.Defunct, Info.Defunct, Info.Defunct,
            Info.Defunct, Info.Defunct⟩ : ProcessInfo))]).Perm
      [((1 : Int), (⟨true, Info.Defunct, Info.Defunct, Info.Defunct,
          Info.Defunct, Info.Defunct, Info.Defunct, Info.Defunct,
          Info.Defunct, Info.Defunct, Info.Defunct, Info.Defunct,
          Info.Defunct, Info.Defunct⟩ : ProcessInfo)),
       ((2 : Int), (⟨false, Info.Defunct, Info.Defunct, Info.Defunct,
          Info.Defunct, Info.Defunct, Info.Defunct, Info.Defunct,
          Info.Defunct, Info.Defunct, Info.Defunct, Info.Defunct,
          Info.Defunct, Info.Defunct⟩ : ProcessInfo))] :=
  (c4_sort_stable [common.Field.Pid] _ (by simp)).1

/-- Claim C9 (corrected): on Linux, a `/proc` stat state of `Z` produces a
record with `is_defunct` set in which exactly the executable path and the
command line collapse to `Unavailable`; the identity fields (pid implicit in
the call, former name, uid, username, parent pid) *and* the stat-derived
fields (cpu usage and time, memory sizes and usage, controlling terminal,
start time) all remain `Present`. -/
theorem c9_linux_zombie (uid : Nat) (name : String) (ppid tty : Int)
    (cu cs st vm rss : Nat) (now up : ℚ) (s2t ps tr : Nat) (un : String)
    (pathq : Except IoError (Info (Option String)))
    (cmdq : Except IoError (Info (Option (List String)))) :
    ∃ (q1 q2 q3 : ℚ) (n1 : Nat) (o1 : Option String),
      linuxPidInfo ⟨uid, name, 90, ppid, tty, cu, cs, st, vm, rss⟩
        ⟨now, Except.ok up, s2t, ps, Except.ok tr, Except.ok un, pathq, cmdq⟩ =
        Except.ok {
          is_defunct := true
          parent_pid := Info.Some ppid
          uid := Info.Some uid
          username := Info.Some un
          path := Info.Defunct
          cmd_line := Info.Defunct
          name := Info.Some name
          cpu_usage := Info.Some q1
          cpu_time := Info.Some n1
          mem_usage := Info.Some q2
          virtual_mem_size := Info.Some vm
          physical_mem_size := Info.Some (rss * ps)
          controlling_tty := Info.Some o1
          start_time := Info.Some q3 } :=
  ⟨_, _, _, _, _, rfl⟩

/-- Claim C9, counterexample to the claim as stated: a concrete Linux
zombie record (stat state `Z`) keeps its username, cpu time, memory sizes
and controlling terminal as `Present` values — they do not collapse to
`Unavailable` — so it is false that only pid, former name, uid and parent
pid remain known.  Only the path and command line are `Unavailable`. -/
theorem c9_counterexample :
    (linuxPidInfo ⟨0, "x", 90, 1, 1, 1, 1, 100, 12345, 2⟩
        ⟨1000, Except.ok 100, 100, 4096, Except.ok 1048576, Except.ok "root",
          Except.ok (Info.Some (Option.some "/bin/x")),
          Except.ok (Info.Some Option.none)⟩).toOption.map
        ProcessInfo.is_defunct = Option.some true ∧
    (linuxPidInfo ⟨0, "x", 90, 1, 1, 1, 1, 100, 12345, 2⟩
        ⟨1000, Except.ok 100, 100, 4096, Except.ok 1048576, Except.ok "root",
          Except.ok (Info.Some (Option.some "/bin/x")),
          Except.ok (Info.Some Option.none)⟩).toOption.map
        ProcessInfo.path = Option.some Info.Defunct ∧
    (linuxPidInfo ⟨0, "x", 90, 1, 1, 1, 1, 100, 12345, 2⟩
        ⟨1000, Except.ok 100, 100, 4096, Except.ok 1048576, Except.ok "root",
          Except.ok (Info.Some (Option.some "/bin/x")),
          Except.ok (Info.Some Option.none)⟩).toOption.map
        ProcessInfo.cmd_line = Option.some Info.Defunct ∧
    (linuxPidInfo ⟨0, "x", 90, 1, 1, 1, 1, 100, 12345, 2⟩
        ⟨1000, Except.ok 100, 100, 4096, Except.ok 1048576, Except.ok "root",
          Except.ok (Info.Some (Option.some "/bin/x")),
          Except.ok (Info.Some Option.none)⟩).toOption.map
        ProcessInfo.username = Option.some (Info.Some "root") ∧
    (linuxPidInfo ⟨0, "x", 90, 1, 1, 1, 1, 100, 12345, 2⟩
        ⟨1000, Except.ok 100, 100, 4096, Except.ok 1048576, Except.ok "root",
          Except.ok (Info.Some (Option.some "/bin/x")),
          Except.ok (Info.Some Option.none)⟩).toOption.map
        ProcessInfo.cpu_time = Option.some (Info.Some 20000000) ∧
    (linuxPidInfo ⟨0, "x", 90, 1, 1, 1, 1, 100, 12345, 2⟩
        ⟨1000, Except.ok 100, 100, 4096, Except.ok 1048576, Except.ok "root",
          Except.ok (Info.Some (Option.some "/bin/x")),
          Except.ok (Info.Some Option.none)⟩).toOption.map
        ProcessInfo.virtual_mem_size = Option.some (Info.Some 12345) ∧
    (linuxPidInfo ⟨0, "x", 90, 1, 1, 1, 1, 100, 12345, 2⟩
        ⟨1000, Except.ok 100, 100, 4096, Except.ok 1048576, Except.ok "root",
          Except.ok (Info.Some (Option.some "/bin/x")),
          Except.ok (Info.Some Option.none)⟩).toOption.map
        ProcessInfo.physical_mem_size = Option.some (Info.Some 8192) ∧
    (linuxPidInfo ⟨0, "x", 90, 1, 1, 1, 1, 100, 12345, 2⟩
        ⟨1000, Except.ok 100, 100, 4096, Except.ok 1048576, Except.ok "root",
          Except.ok (Info.Some (Option.some "/bin/x")),
          Except.ok (Info.Some Option.none)⟩).toOption.map
        ProcessInfo.controlling_tty =
      Option.some (Info.Some (Option.some "0.1")) ∧
    Info.Some ("root" : String) ≠ (Info.Defunct : Info String) ∧
    Info.Some (20000000 : Nat) ≠ (Info.Defunct : Info Nat) :=
  ⟨rfl, rfl, rfl, rfl, rfl, rfl, rfl, rfl, by decide, by decide⟩

/-! ## Claim C6 — the tree builder: membership, uniqueness, node count -/

/-- Structural induction principle for the nested-map tree type. -/
theorem node_induction {motive : cli.Node → Prop}
    (h : ∀ cs : List (Int × cli.Node),
      (∀ x ∈ cs, motive x.2) → motive (.mk cs)) :
    ∀ t, motive t
  | .mk cs => h cs (fun x hx => node_induction h x.2)
termination_by t => sizeOf t
decreasing_by
  have h1 : sizeOf x.2 < sizeOf x := by cases x; simp
  have h2 : sizeOf x < sizeOf cs := List.sizeOf_lt_of_mem hx
  simp
  omega

/-- `pidsList` unfolded to a plain `flatMap` over the child list. -/
theorem pids_mk (cs : List (Int × cli.Node)) :
    cli.Node.pidsList (.mk cs) =
      cs.flatMap (fun e => e.1 :: cli.Node.pidsList e.2) := by
  rw [cli.Node.pidsList]
  conv_rhs => rw [← List.attach_map_subtype_val cs]
  rw [List.flatMap_map]

/-- `countNodes` unfolded to a plain `map`/`sum` over the child list. -/
theorem countNodes_mk (cs : List (Int × cli.Node)) :
    cli.Node.countNodes (.mk cs) =
      (cs.map (fun e => 1 + cli.Node.countNodes e.2)).sum := by
  rw [cli.Node.countNodes]
  conv_rhs => rw [← List.attach_map_subtype_val cs]
  rw [List.map_map]
  rfl

/-- The empty tree stores no pids. -/
theorem pids_nil : cli.Node.pidsList (.mk []) = [] := by
  rw [pids_mk]
  rfl

/-- Inversion of `OccursAt` at a node. -/
theorem occursAt_mk_iff (cs : List (Int × cli.Node)) (π : List Int) :
    cli.OccursAt (.mk cs) π ↔
      ∃ x t2 π2, π = x :: π2 ∧ (x, t2) ∈ cs ∧
        (π2 = [] ∨ cli.OccursAt t2 π2) := by
  constructor
  · intro h
    cases h with
    | key hm => exact ⟨_, _, [], rfl, hm, Or.inl rfl⟩
    | nest hm ho => exact ⟨_, _, _, rfl, hm, Or.inr ho⟩
  · rintro ⟨x, t2, π2, rfl, hm, h | h⟩
    · subst h
      exact .key hm
    · exact .nest hm h

/-- Occurring paths are nonempty. -/
theorem occurs_ne_nil {t : cli.Node} {π : List Int}
    (h : cli.OccursAt t π) : π ≠ [] := by
  cases h <;> simp

/-- No path occurs in the empty tree. -/
theorem occurs_empty (π : List Int) : ¬cli.OccursAt (.mk []) π := by
  intro h
  cases h <;> simp_all

/-- Pid membership after `insertAt`, given the corresponding fact for
`insertChain` on the remaining path. -/
theorem mem_insertAt_pids_aux (p : Int) (rest : List Int) (x : Int)
    (ih : ∀ t : cli.Node,
      x ∈ cli.Node.pidsList (cli.insertChain rest t) ↔
        x ∈ rest ∨ x ∈ cli.Node.pidsList t) :
    ∀ cs : List (Int × cli.Node),
      x ∈ (cli.insertAt p rest cs).flatMap
          (fun e => e.1 :: cli.Node.pidsList e.2) ↔
        (x = p ∨ x ∈ rest) ∨
          x ∈ cs.flatMap (fun e => e.1 :: cli.Node.pidsList e.2)
  | [] => by
    rw [cli.insertAt]
    simp [ih, pids_nil]
  | (q, t) :: cs => by
    rw [cli.insertAt]
    by_cases hpq : p = q
    · subst hpq
      rw [if_pos rfl]
      simp only [List.flatMap_cons, List.mem_append, List.mem_cons, ih]
      tauto
    · rw [if_neg hpq]
      by_cases hlt : p < q
      · rw [if_pos hlt]
        simp only [List.flatMap_cons, List.mem_append, List.mem_cons, ih,
          pids_nil]
        tauto
      · rw [if_neg hlt]
        simp only [List.flatMap_cons, List.mem_append, List.mem_cons,
          mem_insertAt_pids_aux p rest x ih cs]
        tauto

/-- `insertChain` adds exactly the pids of the inserted path. -/
theorem mem_pids_insertChain :
    ∀ (c : List Int) (t : cli.Node) (x : Int),
      x ∈ cli.Node.pidsList (cli.insertChain c t) ↔
        x ∈ c ∨ x ∈ cli.Node.pidsList t
  | [], t, x => by
    rw [cli.insertChain]
    simp
  | p :: rest, .mk cs, x => by
    rw [cli.insertChain, pids_mk, pids_mk]
    rw [mem_insertAt_pids_aux p rest x
      (fun t => mem_pids_insertChain rest t x) cs]
    simp

/-- The head key after `insertAt` is the inserted key or the original
head key. -/
theorem insertAt_head_key (p : Int) (rest : List Int) :
    ∀ (cs : List (Int × cli.Node)) (e : Int × cli.Node),
      (cli.insertAt p rest cs).head? = Option.some e →
      e.1 = p ∨ ∃ e0, cs.head? = Option.some e0 ∧ e.1 = e0.1
  | [], e => by
    rw [cli.insertAt]
    intro h
    cases h
    exact Or.inl rfl
  | (q, t) :: cs, e => by
    rw [cli.insertAt]
    by_cases hpq : p = q
    · subst hpq
      rw [if_pos rfl]
      intro h
      cases h
      exact Or.inr ⟨(p, t), rfl, rfl⟩
    · rw [if_neg hpq]
      by_cases hlt : p < q
      · rw [if_pos hlt]
        intro h
        cases h
        exact Or.inl rfl
      · rw [if_neg hlt]
        intro h
        cases h
        exact Or.inr ⟨(q, t), rfl, rfl⟩

/-- `insertAt` preserves sorted keys and well-formed subtrees, given the
corresponding fact for `insertChain` on the remaining path. -/
theorem wf_insertAt_aux (p : Int) (rest : List Int)
    (ih : ∀ t : cli.Node,
      cli.WfTree t → cli.WfTree (cli.insertChain rest t)) :
    ∀ cs : List (Int × cli.Node),
      List.Chain' (fun a b : Int × cli.Node => a.1 < b.1) cs →
      (∀ e ∈ cs, cli.WfTree e.2) →
      List.Chain' (fun a b : Int × cli.Node => a.1 < b.1)
          (cli.insertAt p rest cs) ∧
        ∀ e ∈ cli.insertAt p rest cs, cli.WfTree e.2
  | [], _, _ => by
    rw [cli.insertAt]
    refine ⟨List.chain'_singleton _, ?_⟩
    intro e he
    rw [List.mem_singleton] at he
    subst he
    exact ih _ (cli.WfTree.mk List.chain'_nil (by simp))
  | (q, t) :: cs, hchain, hwf => by
    rw [List.chain'_cons'] at hchain
    obtain ⟨hhd, htl⟩ := hchain
    rw [cli.insertAt]
    by_cases hpq : p = q
    · subst hpq
      rw [if_pos rfl]
      refine ⟨List.chain'_cons'.mpr ⟨hhd, htl⟩, ?_⟩
      intro e he
      rw [List.mem_cons] at he
      rcases he with he | he
      · subst he
        exact ih t (hwf (p, t) (List.mem_cons_self _ _))
      · exact hwf e (List.mem_cons_of_mem _ he)
    · rw [if_neg hpq]
      by_cases hlt : p < q
      · rw [if_pos hlt]
        refine ⟨List.chain'_cons'.mpr ⟨?_, List.chain'_cons'.mpr ⟨hhd, htl⟩⟩,
          ?_⟩
        · intro e he
          rw [List.head?_cons, Option.mem_some_iff] at he
          subst he
          exact hlt
        · intro e he
          rw [List.mem_cons] at he
          rcases he with he | he
          · subst he
            exact ih _ (cli.WfTree.mk List.chain'_nil (by simp))
          · exact hwf e he
      · have hqp : q < p := by omega
        rw [if_neg hlt]
        obtain ⟨hchain2, hwf2⟩ := wf_insertAt_aux p rest ih cs htl
          (fun e he => hwf e (List.mem_cons_of_mem _ he))
        refine ⟨List.chain'_cons'.mpr ⟨?_, hchain2⟩, ?_⟩
        · intro e he
          rw [Option.mem_def] at he
          rcases insertAt_head_key p rest cs e he with h1 | ⟨e0, he0, h1⟩
          · rw [h1]
            exact hqp
          · rw [h1]
            exact hhd e0 (Option.mem_def.mpr he0)
        · intro e he
          rw [List.mem_cons] at he
          rcases he with he | he
          · subst he
            exact hwf (q, t) (List.mem_cons_self _ _)
          · exact hwf2 e he

/-- `insertChain` preserves the `BTreeMap` sorted-keys invariant. -/
theorem wfTree_insertChain :
    ∀ (c : List Int) (t : cli.Node),
      cli.WfTree t → cli.WfTree (cli.insertChain c t)
  | [], _, h => by
    rw [cli.insertChain]
    exact h
  | p :: rest, .mk cs, h => by
    rw [cli.insertChain]
    cases h with
    | mk hchain hwf =>
      obtain ⟨h1, h2⟩ := wf_insertAt_aux p rest
        (fun t ht => wfTree_insertChain rest t ht) cs hchain hwf
      exact cli.WfTree.mk h1 h2

/-- `OccursAt` at a node with an explicit first child entry. -/
theorem occurs_cons_iff (p : Int) (t : cli.Node)
    (cs : List (Int × cli.Node)) (π : List Int) :
    cli.OccursAt (.mk ((p, t) :: cs)) π ↔
      (∃ π2, π = p :: π2 ∧ (π2 = [] ∨ cli.OccursAt t π2)) ∨
        cli.OccursAt (.mk cs) π := by
  rw [occursAt_mk_iff, occursAt_mk_iff]
  constructor
  · rintro ⟨x, t2, π2, rfl, hm, hc⟩
    rw [List.mem_cons] at hm
    rcases hm with hm | hm
    · rw [Prod.mk.injEq] at hm
      obtain ⟨rfl, rfl⟩ := hm
      exact Or.inl ⟨π2, rfl, hc⟩
    · exact Or.inr ⟨x, t2, π2, rfl, hm, hc⟩
  · rintro (⟨π2, rfl, hc⟩ | ⟨x, t2, π2, rfl, hm, hc⟩)
    · exact ⟨p, t, π2, rfl, List.mem_cons_self _ _, hc⟩
    · exact ⟨x, t2, π2, rfl, List.mem_cons_of_mem _ hm, hc⟩

/-- `occurs_empty`, as a rewrite rule. -/
theorem occurs_empty_iff (π : List Int) :
    cli.OccursAt (.mk []) π ↔ False :=
  iff_false_intro (occurs_empty π)

/-- Characterisation of the nonempty prefixes of `p :: rest`. -/
theorem prefix_cons_char (p : Int) (rest π : List Int) :
    (π ≠ [] ∧ π <+: p :: rest) ↔
      ∃ π2, π = p :: π2 ∧ (π2 = [] ∨ (π2 ≠ [] ∧ π2 <+: rest)) := by
  constructor
  · rintro ⟨hne, hpre⟩
    cases π with
    | nil => simp at hne
    | cons a π2 =>
      rw [List.cons_prefix_cons] at hpre
      obtain ⟨rfl, h2⟩ := hpre
      refine ⟨π2, rfl, ?_⟩
      by_cases h : π2 = []
      · exact Or.inl h
      · exact Or.inr ⟨h, h2⟩
  · rintro ⟨π2, rfl, h⟩
    refine ⟨by simp, ?_⟩
    rw [List.cons_prefix_cons]
    rcases h with rfl | ⟨h1, h2⟩
    · exact ⟨rfl, List.nil_prefix⟩
    · exact ⟨rfl, h2⟩

/-- Paths after `insertAt`: the old paths plus the nonempty prefixes of
the inserted path, given the corresponding fact for `insertChain`. -/
theorem occursAt_insertAt_aux (p : Int) (rest : List Int)
    (ih : ∀ (t : cli.Node) (π : List Int),
      cli.OccursAt (cli.insertChain rest t) π ↔
        cli.OccursAt t π ∨ (π ≠ [] ∧ π <+: rest)) :
    ∀ (cs : List (Int × cli.Node)) (π : List Int),
      cli.OccursAt (.mk (cli.insertAt p rest cs)) π ↔
        cli.OccursAt (.mk cs) π ∨ (π ≠ [] ∧ π <+: p :: rest)
  | [], π => by
    rw [cli.insertAt, occurs_cons_iff, prefix_cons_char]
    simp only [ih, occurs_empty_iff, false_or, or_false]
  | (q, t) :: cs, π => by
    rw [cli.insertAt]
    by_cases hpq : p = q
    · subst hpq
      rw [if_pos rfl, occurs_cons_iff, occurs_cons_iff, prefix_cons_char]
      simp only [ih]
      constructor
      · rintro (⟨π2, rfl, hc⟩ | h)
        · rcases hc with rfl | hc2 | hc3
          · exact Or.inl (Or.inl ⟨[], rfl, Or.inl rfl⟩)
          · exact Or.inl (Or.inl ⟨π2, rfl, Or.inr hc2⟩)
          · exact Or.inr ⟨π2, rfl, Or.inr hc3⟩
        · exact Or.inl (Or.inr h)
      · rintro ((⟨π2, rfl, hc⟩ | h) | ⟨π2, rfl, hc⟩)
        · rcases hc with rfl | hc2
          · exact Or.inl ⟨[], rfl, Or.inl rfl⟩
          · exact Or.inl ⟨π2, rfl, Or.inr (Or.inl hc2)⟩
        · exact Or.inr h
        · rcases hc with rfl | hc2
          · exact Or.inl ⟨[], rfl, Or.inl rfl⟩
          · exact Or.inl ⟨π2, rfl, Or.inr (Or.inr hc2)⟩
    · rw [if_neg hpq]
      by_cases hlt : p < q
      · rw [if_pos hlt, occurs_cons_iff, occurs_cons_iff, prefix_cons_char]
        simp only [ih, occurs_empty_iff, false_or]
        exact or_comm
      · rw [if_neg hlt, occurs_cons_iff, occurs_cons_iff,
          occursAt_insertAt_aux p rest ih cs π]
        exact or_assoc.symm

/-- Paths after `insertChain` are exactly the old paths plus the
nonempty prefixes of the inserted path. -/
theorem occursAt_insertChain :
    ∀ (c : List Int) (t : cli.Node) (π : List Int),
      cli.OccursAt (cli.insertChain c t) π ↔
        cli.OccursAt t π ∨ (π ≠ [] ∧ π <+: c)
  | [], t, π => by
    rw [cli.insertChain]
    constructor
    · exact Or.inl
    · rintro (h | ⟨hne, hpre⟩)
      · exact h
      · exact absurd (List.prefix_nil.mp hpre) hne
  | p :: rest, .mk cs, π => by
    rw [cli.insertChain]
    exact occursAt_insertAt_aux p rest
      (fun t π => occursAt_insertChain rest t π) cs π

/-- A finished ancestor walk is unchanged by extra fuel. -/
theorem chainF_mono (full : List (Int × cli.ProcessInfo)) :
    ∀ (f1 f2 : Nat) (s : Int × cli.ProcessInfo)
      (l : List (Int × cli.ProcessInfo)), f1 ≤ f2 →
      cli.chainF full f1 s = Option.some l →
      cli.chainF full f2 s = Option.some l
  | 0, _, s, l, _, h => by
    rw [cli.chainF] at h
    cases h
  | f1 + 1, f2, s, l, hle, h => by
    obtain ⟨f3, rfl⟩ : ∃ f3, f2 = f3 + 1 := ⟨f2 - 1, by omega⟩
    rw [cli.chainF] at h
    rw [cli.chainF]
    cases hs : cli.stepFn full s with
    | none =>
      rw [hs] at h
      exact h
    | some s2 =>
      rw [hs] at h
      rw [Option.map_eq_some'] at h
      obtain ⟨l2, hl2, rfl⟩ := h
      simp only [chainF_mono full f1 f3 s2 l2 (by omega) hl2,
        Option.map_some']

/-- An ancestor chain starts at its starting record. -/
theorem chainF_head (full : List (Int × cli.ProcessInfo))
    (fuel : Nat) (s : Int × cli.ProcessInfo)
    (l : List (Int × cli.ProcessInfo))
    (h : cli.chainF full fuel s = Option.some l) :
    ∃ r, l = s :: r := by
  cases fuel with
  | zero =>
    rw [cli.chainF] at h
    cases h
  | succ f =>
    rw [cli.chainF] at h
    cases hs : cli.stepFn full s with
    | none =>
      rw [hs] at h
      cases h
      exact ⟨[], rfl⟩
    | some s2 =>
      rw [hs] at h
      rw [Option.map_eq_some'] at h
      obtain ⟨l2, _, rfl⟩ := h
      exact ⟨l2, rfl⟩

/-- Every record produced by a walk step is the lookup of its own pid. -/
theorem stepFn_lookup (full : List (Int × cli.ProcessInfo)) (x : Int)
    (i : cli.ProcessInfo) (s2 : Int × cli.ProcessInfo)
    (h : cli.stepFn full (x, i) = Option.some s2) :
    List.lookup s2.1 full = Option.some s2.2 := by
  cases i with
  | Defunct =>
    rw [cli.stepFn] at h
    cases h
  | Running r =>
    rw [cli.stepFn] at h
    rw [Option.map_eq_some'] at h
    obtain ⟨pi, hpi, rfl⟩ := h
    exact hpi

/-- Every nonempty prefix of a reversed ancestor chain is a canonical
path: it is itself the reversed ancestor chain of its endpoint. -/
theorem canonPath_chain_prefixes (full : List (Int × cli.ProcessInfo)) :
    ∀ (fuel : Nat) (x : Int) (i : cli.ProcessInfo)
      (l : List (Int × cli.ProcessInfo)),
      fuel ≤ full.length + 1 →
      List.lookup x full = Option.some i →
      cli.chainF full fuel (x, i) = Option.some l →
      ∀ π, π ≠ [] → π <+: (l.map Prod.fst).reverse → cli.CanonPath full π
  | 0, x, i, l, _, _, h => by
    rw [cli.chainF] at h
    cases h
  | fuel + 1, x, i, l, hfuel, hlook, h => by
    have hfull : cli.chainF full (full.length + 1) (x, i) = Option.some l :=
      chainF_mono full (fuel + 1) (full.length + 1) (x, i) l hfuel h
    rw [cli.chainF] at h
    cases hs : cli.stepFn full (x, i) with
    | none =>
      rw [hs] at h
      cases h
      intro π hne hpre
      simp only [List.map_cons, List.map_nil, List.reverse_cons,
        List.reverse_nil, List.nil_append] at hpre
      cases π with
      | nil => exact absurd rfl hne
      | cons a π2 =>
        rw [List.cons_prefix_cons] at hpre
        obtain ⟨rfl, hpre2⟩ := hpre
        rw [List.prefix_nil] at hpre2
        subst hpre2
        exact ⟨a, i, [(a, i)], rfl, hlook, hfull, rfl⟩
    | some s2 =>
      rw [hs] at h
      rw [Option.map_eq_some'] at h
      obtain ⟨l2, hl2, rfl⟩ := h
      intro π hne hpre
      rw [List.map_cons, List.reverse_cons] at hpre
      rcases List.prefix_concat_iff.mp hpre with hpre | hpre
      · subst hpre
        refine ⟨x, i, (x, i) :: l2, ?_, hlook, hfull,
          by rw [List.map_cons, List.reverse_cons]⟩
        rw [List.getLast?_concat]
      · obtain ⟨x2, i2⟩ := s2
        exact canonPath_chain_prefixes full fuel x2 i2 l2 (by omega)
          (stepFn_lookup full x i (x2, i2) hs) hl2 π hne hpre

/-- Inserting a path all of whose nonempty prefixes are canonical
preserves canonicity of the tree. -/
theorem canonical_insertChain (full : List (Int × cli.ProcessInfo))
    (c : List Int) (t : cli.Node) (hcan : cli.Canonical full t)
    (hc : ∀ π, π ≠ [] → π <+: c → cli.CanonPath full π) :
    cli.Canonical full (cli.insertChain c t) := by
  intro π hocc
  rcases (occursAt_insertChain c t π).mp hocc with h | ⟨hne, hpre⟩
  · exact hcan π h
  · exact hc π hne hpre

/-- In a canonical tree, a path is determined by its endpoint: the
lookup and the ancestor walk are functions of the endpoint pid. -/
theorem pathInj_of_canonical (full : List (Int × cli.ProcessInfo))
    (t : cli.Node) (hcan : cli.Canonical full t) :
    ∀ π1 π2, cli.OccursAt t π1 → cli.OccursAt t π2 →
      π1.getLast? = π2.getLast? → π1 = π2 := by
  intro π1 π2 h1 h2 hlast
  obtain ⟨x1, i1, l1, hg1, hl1, hc1, he1⟩ := hcan π1 h1
  obtain ⟨x2, i2, l2, hg2, hl2, hc2, he2⟩ := hcan π2 h2
  rw [hg1, hg2] at hlast
  cases hlast
  rw [hl1] at hl2
  cases hl2
  rw [hc1] at hc2
  cases hc2
  rw [he1, he2]

/-- A pid is stored in the tree iff some occurring path ends at it. -/
theorem mem_pids_iff :
    ∀ (t : cli.Node) (x : Int),
      x ∈ cli.Node.pidsList t ↔
        ∃ π, cli.OccursAt t π ∧ π.getLast? = Option.some x := by
  refine node_induction ?_
  intro cs ih x
  rw [pids_mk, List.mem_flatMap]
  constructor
  · rintro ⟨⟨p, t2⟩, he, hx⟩
    rw [List.mem_cons] at hx
    rcases hx with rfl | hx
    · exact ⟨[x], cli.OccursAt.key he, rfl⟩
    · obtain ⟨π, hocc, hlast⟩ := (ih (p, t2) he x).mp hx
      refine ⟨p :: π, cli.OccursAt.nest he hocc, ?_⟩
      cases π with
      | nil => exact absurd rfl (occurs_ne_nil hocc)
      | cons b π2 =>
        rw [List.getLast?_cons_cons]
        exact hlast
  · rintro ⟨π, hocc, hlast⟩
    cases hocc with
    | key hm =>
      rename_i p t2
      rw [List.getLast?_singleton] at hlast
      cases hlast
      exact ⟨(x, t2), hm, List.mem_cons_self _ _⟩
    | nest hm hocc2 =>
      rename_i p t2 π2
      refine ⟨(p, t2), hm, List.mem_cons_of_mem _ ?_⟩
      refine (ih (p, t2) hm x).mpr ⟨π2, hocc2, ?_⟩
      cases π2 with
      | nil => exact absurd rfl (occurs_ne_nil hocc2)
      | cons b π3 =>
        rw [List.getLast?_cons_cons] at hlast
        exact hlast

/-- `getLast?` ignores a cons onto a nonempty list. -/
theorem getLast?_cons_of_ne_nil {a : Int} {l : List Int} (h : l ≠ []) :
    (a :: l).getLast? = l.getLast? := by
  cases l with
  | nil => exact absurd rfl h
  | cons b l2 => rw [List.getLast?_cons_cons]

/-- If every occurring path of a well-formed tree is determined by its
endpoint, no pid is stored twice. -/
theorem nodup_pids :
    ∀ t : cli.Node, cli.WfTree t →
      (∀ π1 π2, cli.OccursAt t π1 → cli.OccursAt t π2 →
        π1.getLast? = π2.getLast? → π1 = π2) →
      (cli.Node.pidsList t).Nodup := by
  refine node_induction ?_
  intro cs ih hwf hinj
  rw [pids_mk, List.nodup_flatMap]
  cases hwf with
  | mk hchain hwfc =>
    constructor
    · intro e he
      obtain ⟨p, t2⟩ := e
      rw [List.nodup_cons]
      constructor
      · intro hmem
        obtain ⟨π, hocc, hlast⟩ := (mem_pids_iff t2 p).mp hmem
        have h1 : cli.OccursAt (.mk cs) [p] := .key he
        have h2 : cli.OccursAt (.mk cs) (p :: π) := .nest he hocc
        have heq := hinj [p] (p :: π) h1 h2 (by
          rw [getLast?_cons_of_ne_nil (occurs_ne_nil hocc), hlast]
          rfl)
        injection heq with _ hnil
        exact absurd hnil.symm (occurs_ne_nil hocc)
      · refine ih (p, t2) he (hwfc (p, t2) he) ?_
        intro π1 π2 ho1 ho2 hl
        have h1 : cli.OccursAt (.mk cs) (p :: π1) := .nest he ho1
        have h2 : cli.OccursAt (.mk cs) (p :: π2) := .nest he ho2
        have heq := hinj (p :: π1) (p :: π2) h1 h2 (by
          rw [getLast?_cons_of_ne_nil (occurs_ne_nil ho1),
            getLast?_cons_of_ne_nil (occurs_ne_nil ho2)]
          exact hl)
        injection heq
    · have hpair :
          List.Pairwise (fun a b : Int × cli.Node => a.1 < b.1) cs := by
        haveI : IsTrans (Int × cli.Node) (fun a b => a.1 < b.1) :=
          ⟨fun a b c h1 h2 => lt_trans h1 h2⟩
        exact List.chain'_iff_pairwise.mp hchain
      refine List.Pairwise.imp_of_mem ?_ hpair
      intro a b ha hb hab
      obtain ⟨pa, ta⟩ := a
      obtain ⟨pb, tb⟩ := b
      intro x hxa hxb
      rw [List.mem_cons] at hxa hxb
      have hA : ∃ ra, cli.OccursAt (.mk cs) (pa :: ra) ∧
          (pa :: ra).getLast? = Option.some x := by
        rcases hxa with rfl | hxa
        · exact ⟨[], .key ha, rfl⟩
        · obtain ⟨π, hocc, hlast⟩ := (mem_pids_iff ta x).mp hxa
          exact ⟨π, .nest ha hocc,
            by rw [getLast?_cons_of_ne_nil (occurs_ne_nil hocc)]; exact hlast⟩
      have hB : ∃ rb, cli.OccursAt (.mk cs) (pb :: rb) ∧
          (pb :: rb).getLast? = Option.some x := by
        rcases hxb with rfl | hxb
        · exact ⟨[], .key hb, rfl⟩
        · obtain ⟨π, hocc, hlast⟩ := (mem_pids_iff tb x).mp hxb
          exact ⟨π, .nest hb hocc,
            by rw [getLast?_cons_of_ne_nil (occurs_ne_nil hocc)]; exact hlast⟩
      obtain ⟨ra, hoa, hla⟩ := hA
      obtain ⟨rb, hob, hlb⟩ := hB
      have heq := hinj (pa :: ra) (pb :: rb) hoa hob (by rw [hla, hlb])
      injection heq with hhead _
      exact absurd hhead (ne_of_lt hab)

/-- A tree has exactly one node per stored pid. -/
theorem countNodes_eq_length_pids :
    ∀ t : cli.Node,
      cli.Node.countNodes t = (cli.Node.pidsList t).length := by
  refine node_induction ?_
  intro cs ih
  rw [countNodes_mk, pids_mk, List.length_flatMap]
  congr 1
  refine List.map_congr_left ?_
  intro e he
  rw [Function.comp_apply, List.length_cons, ih e he]
  omega

/-- The empty tree is well formed. -/
theorem wf_empty : cli.WfTree (.mk []) :=
  cli.WfTree.mk List.chain'_nil (by simp)

/-- The empty tree is canonical for any record table. -/
theorem canonical_empty (full : List (Int × cli.ProcessInfo)) :
    cli.Canonical full (.mk []) :=
  fun π h => absurd h (occurs_empty π)

/-- Invariant of the `create_tree` fold: starting from a well-formed
canonical tree, the fold succeeds when every remaining walk finishes, and
it adds exactly the pids of the remaining ancestor chains, preserving
well-formedness and canonicity. -/
theorem create_tree_fold_spec (full : List (Int × cli.ProcessInfo)) :
    ∀ (ps : List (Int × cli.ProcessInfo)) (t : cli.Node),
      (∀ pi ∈ ps, List.lookup pi.1 full = Option.some pi.2) →
      (∀ pi ∈ ps,
        cli.chainF full (full.length + 1) pi ≠ Option.none) →
      cli.WfTree t → cli.Canonical full t →
      ∃ t2,
        ps.foldl
            (fun acc pi =>
              acc.bind (fun t =>
                (cli.chainF full (full.length + 1) pi).map
                  (fun c => cli.insertChain ((c.map Prod.fst).reverse) t)))
            (Option.some t) = Option.some t2 ∧
          cli.WfTree t2 ∧ cli.Canonical full t2 ∧
          ∀ x, x ∈ cli.Node.pidsList t2 ↔
            x ∈ ps.flatMap (cli.chainPids full) ∨ x ∈ cli.Node.pidsList t
  | [], t, _, _, hwf, hcan => by
    refine ⟨t, rfl, hwf, hcan, ?_⟩
    intro x
    simp
  | pi :: ps, t, hlook, hterm, hwf, hcan => by
    obtain ⟨c, hc⟩ := Option.ne_none_iff_exists'.mp
      (hterm pi (List.mem_cons_self _ _))
    rw [List.foldl_cons, Option.some_bind, hc, Option.map_some']
    set t1 := cli.insertChain ((c.map Prod.fst).reverse) t with ht1
    have hwf1 : cli.WfTree t1 := wfTree_insertChain _ t hwf
    have hcan1 : cli.Canonical full t1 := by
      refine canonical_insertChain full _ t hcan ?_
      intro π hne hpre
      obtain ⟨x0, i0⟩ := pi
      exact canonPath_chain_prefixes full (full.length + 1) x0 i0 c
        (le_refl _) (hlook (x0, i0) (List.mem_cons_self _ _)) hc π hne hpre
    obtain ⟨t2, hfold, hwf2, hcan2, hmem⟩ :=
      create_tree_fold_spec full ps t1
        (fun e he => hlook e (List.mem_cons_of_mem _ he))
        (fun e he => hterm e (List.mem_cons_of_mem _ he)) hwf1 hcan1
    refine ⟨t2, hfold, hwf2, hcan2, ?_⟩
    intro x
    rw [hmem x, ht1, mem_pids_insertChain, List.flatMap_cons,
      List.mem_append]
    have hcp : cli.chainPids full pi = c.map Prod.fst := by
      rw [cli.chainPids, hc]
      rfl
    rw [hcp, List.mem_reverse]
    tauto

/-- Claim C6 (confirmed): for every filtered record set whose records are
found by lookup in the ancestor-resolution scope `full` (the full table
when ancestors are included, the filtered table otherwise) and whose
ancestor walks all terminate, `create_tree` produces a tree in which every
filtered record's pid appears, no pid appears twice, and the number of
tree nodes equals the number of distinct pids reachable by
ancestor-walking from the filtered set. -/
theorem c6 (filtered full : List (Int × cli.ProcessInfo))
    (hlook : ∀ pi ∈ filtered, List.lookup pi.1 full = Option.some pi.2)
    (hterm : ∀ pi ∈ filtered,
      cli.chainF full (full.length + 1) pi ≠ Option.none) :
    ∃ t, cli.create_tree filtered full = Option.some t ∧
      (∀ pi ∈ filtered, pi.1 ∈ cli.Node.pidsList t) ∧
      (cli.Node.pidsList t).Nodup ∧
      cli.Node.countNodes t =
        ((filtered.flatMap (cli.chainPids full)).dedup).length := by
  obtain ⟨t, hfold, hwf, hcan, hmem⟩ :=
    create_tree_fold_spec full filtered (.mk []) hlook hterm wf_empty
      (canonical_empty full)
  have hmem2 : ∀ x, x ∈ cli.Node.pidsList t ↔
      x ∈ filtered.flatMap (cli.chainPids full) := by
    intro x
    rw [hmem x, pids_nil]
    simp
  have hnd : (cli.Node.pidsList t).Nodup :=
    nodup_pids t hwf (pathInj_of_canonical full t hcan)
  refine ⟨t, ?_, ?_, hnd, ?_⟩
  · rw [cli.create_tree]
    exact hfold
  · intro pi hpi
    obtain ⟨c, hc⟩ := Option.ne_none_iff_exists'.mp (hterm pi hpi)
    rw [hmem2, List.mem_flatMap]
    refine ⟨pi, hpi, ?_⟩
    rw [cli.chainPids, hc]
    obtain ⟨r, hr⟩ := chainF_head full (full.length + 1) pi c hc
    simp only [Option.getD_some]
    rw [hr, List.map_cons]
    exact List.mem_cons_self _ _
  · rw [countNodes_eq_length_pids]
    refine List.Perm.length_eq ?_
    refine List.perm_of_nodup_nodup_toFinset_eq hnd (List.nodup_dedup _) ?_
    ext x
    rw [List.mem_toFinset, List.mem_toFinset, List.mem_dedup, hmem2]

/-- Claim C6, witness: the theorem applied to the concrete acyclic
two-record table. -/
theorem c6_witness :
    ∃ t, cli.create_tree cli.acyclicFull cli.acyclicFull = Option.some t ∧
      (∀ pi ∈ cli.acyclicFull, pi.1 ∈ cli.Node.pidsList t) ∧
      (cli.Node.pidsList t).Nodup ∧
      cli.Node.countNodes t =
        ((cli.acyclicFull.flatMap
            (cli.chainPids cli.acyclicFull)).dedup).length :=
  c6 cli.acyclicFull cli.acyclicFull (by decide) (by decide)
